import Mathlib

/-!
# Disruptor: sequencing and gating protocol

A shallow embedding of `disruptor.h`, `disruptor.cpp` and the driver loops of
`main.cpp`.

* A position is an `int64_t`; it is an `Int` here, and every signed 64-bit
  addition or subtraction of the source is a checked operation (`add64`,
  `sub64`) that faults with `Fault.overflow` when the exact result leaves the
  int64 range (signed overflow has no defined result in C++).
* The narrowing `int tmp_pos = ...acquire()` of `SequenceBarrier::waitFor` is
  the two's-complement truncation `toInt32`.
* The published positions of the other cursors are a memory `Mem`, read by
  `cursor->pos().acquire()`; a call reads one snapshot of that memory.
* The spinning loop of `SequenceBarrier::waitFor` does not return while the
  polled follower stays below the target: on such a snapshot the call is
  `Fault.blocked`.
-/

namespace Disruptor

/-! ## Machine integers -/

/-- Largest `int64_t`, `std::numeric_limits<int64_t>::max()`. -/
def INT64_MAX : Int := 9223372036854775807

/-- Smallest `int64_t`. -/
def INT64_MIN : Int := -9223372036854775808

/-- Ways in which a call fails to produce a value. -/
inductive Fault where
  /-- the call spins: a polled follower is below the target -/
  | blocked
  /-- a signed 64-bit addition or subtraction leaves the int64 range -/
  | overflow
  /-- a step that the scenario under study excludes -/
  | rejected
deriving DecidableEq

deriving instance DecidableEq for Except

/-- Signed 64-bit addition `a + b`. -/
def add64 (a b : Int) : Except Fault Int :=
  if INT64_MIN ≤ a + b ∧ a + b ≤ INT64_MAX then .ok (a + b) else .error .overflow

/-- Signed 64-bit subtraction `a - b`. -/
def sub64 (a b : Int) : Except Fault Int :=
  if INT64_MIN ≤ a - b ∧ a - b ≤ INT64_MAX then .ok (a - b) else .error .overflow

/-- Conversion of an `int64_t` to `int` (32 bits, two's complement). -/
def toInt32 (x : Int) : Int := (x + 2147483648) % 4294967296 - 2147483648

/-- Conversion of an `int64_t` to `size_t` (64 bits, unsigned). -/
def toUInt64 (x : Int) : Nat := (x % 18446744073709551616).toNat

/-- Two's-complement reduction of an integer to the int64 range. -/
def wrap64 (x : Int) : Int :=
  (x + 9223372036854775808) % 18446744073709551616 - 9223372036854775808

/-! ## Sequence and memory -/

/-- Published positions of the cursors of the shared segment, by cursor
identity: `mem c` is what `c->pos().acquire()` returns. -/
abbrev Mem := Nat → Int

/-! ## RingBuffer -/

/-- Slot index of `RingBuffer<T, size>::at(pos)`: `pos & (size - 1)`, the
position being converted to `size_t` by the usual arithmetic conversions. -/
def RingBuffer.at_ (size : Nat) (pos : Int) : Nat :=
  toUInt64 pos &&& (size - 1)

/-- Bitwise complement `~n` of a `size_t`. -/
def not64 (n : Nat) : Nat := 18446744073709551615 - n

/-- Predicate of the `static_assert` of `RingBuffer<T, size>`:
`(size != 0) && ((size & (~size + 1)) == size)`, computed on `size_t`. -/
def RingBuffer.sizeCheck (size : Nat) : Bool :=
  size != 0 && (size &&& ((not64 size + 1) % 18446744073709551616)) == size

/-! ## SequenceBarrier -/

/-- Number of follower slots of a barrier. -/
def MAX_FOLLOWERS : Nat := 8

/-- Barrier state: the slot array `limit_seq_` (a null slot is `none`, a
follower is the identity of its cursor) and the cached minimum `last_min_`. -/
structure SequenceBarrier where
  limit_seq_ : List (Option Nat)
  last_min_ : Int
deriving DecidableEq

/-- Default-initialised barrier: eight null slots, `last_min_ = -1`. -/
def SequenceBarrier.new : SequenceBarrier :=
  { limit_seq_ := List.replicate MAX_FOLLOWERS none, last_min_ := -1 }

/-- Loop of `SequenceBarrier::follows`: the first null slot takes `e`; when
the loop ends without finding one nothing is written. -/
def followsSlots (e : Nat) : List (Option Nat) → List (Option Nat)
  | [] => []
  | none :: rest => some e :: rest
  | some c :: rest => some c :: followsSlots e rest

/-- Registration `SequenceBarrier::follows(e)`; the source function is
`void`. -/
def SequenceBarrier.follows (b : SequenceBarrier) (e : Nat) : SequenceBarrier :=
  { b with limit_seq_ := followsSlots e b.limit_seq_ }

/-- Loop of `SequenceBarrier::getMin`: scan up to the first null slot. -/
def getMinScan (mem : Mem) : List (Option Nat) → Int → Int
  | [], min_pos => min_pos
  | none :: _, min_pos => min_pos
  | some c :: rest, min_pos =>
      let pos := mem c
      getMinScan mem rest (if pos < min_pos then pos else min_pos)

/-- Call `SequenceBarrier::getMin()`: result and barrier afterwards. -/
def SequenceBarrier.getMin (b : SequenceBarrier) (mem : Mem) : Int × SequenceBarrier :=
  let min_pos := getMinScan mem b.limit_seq_ INT64_MAX
  (min_pos, { b with last_min_ := min_pos })

/-- Loop of `SequenceBarrier::waitFor`: scan up to the first null slot; each
follower is read into `int tmp_pos`; `none` when a follower is below `pos`
(the inner loop keeps spinning). -/
def waitForScan (mem : Mem) (pos : Int) : List (Option Nat) → Int → Option Int
  | [], min_pos => some min_pos
  | none :: _, min_pos => some min_pos
  | some c :: rest, min_pos =>
      let tmp_pos := toInt32 (mem c)
      if tmp_pos ≥ pos then
        waitForScan mem pos rest (if tmp_pos < min_pos then tmp_pos else min_pos)
      else none

/-- Call `SequenceBarrier::waitFor(pos)`: result and barrier afterwards. -/
def SequenceBarrier.waitFor (b : SequenceBarrier) (mem : Mem) (pos : Int) :
    Except Fault (Int × SequenceBarrier) :=
  if b.last_min_ ≥ pos then .ok (b.last_min_, b)
  else
    match waitForScan mem pos b.limit_seq_ INT64_MAX with
    | none => .error .blocked
    | some min_pos =>
        if min_pos = INT64_MAX then .ok (min_pos, b)
        else .ok (min_pos, { b with last_min_ := min_pos })

/-- Followers registered in a barrier: its non-null slots. -/
def SequenceBarrier.followers (b : SequenceBarrier) : List Nat :=
  b.limit_seq_.filterMap id

/-! ## Cursors -/

/-- State of an `EventCursor`: window bounds, barrier, and the value of its
own `Sequence`. -/
structure EventCursor where
  begin_ : Int
  end_ : Int
  barrier_ : SequenceBarrier
  cursor_ : Int
deriving DecidableEq

/-- Call `EventCursor::follows(e)`. -/
def EventCursor.follows (c : EventCursor) (e : Nat) : EventCursor :=
  { c with barrier_ := c.barrier_.follows e }

/-- Call `EventCursor::publish(p)`. -/
def EventCursor.publish (c : EventCursor) (p : Int) : Except Fault EventCursor :=
  match add64 p 1 with
  | .ok b => .ok { c with begin_ := b, cursor_ := p }
  | .error f => .error f

/-- State of a `ReadCursor`. -/
structure ReadCursor extends EventCursor
deriving DecidableEq

/-- Constructor `ReadCursor(p)`. -/
def ReadCursor.new (p : Int) : ReadCursor :=
  { begin_ := p, end_ := p, barrier_ := SequenceBarrier.new, cursor_ := -1 }

/-- Call `follows(e)` on a reader. -/
def ReadCursor.follows (r : ReadCursor) (e : Nat) : ReadCursor :=
  { r with toEventCursor := r.toEventCursor.follows e }

/-- Call `publish(p)` on a reader. -/
def ReadCursor.publish (r : ReadCursor) (p : Int) : Except Fault ReadCursor :=
  match r.toEventCursor.publish p with
  | .ok c => .ok { r with toEventCursor := c }
  | .error f => .error f

/-- Call `ReadCursor::waitFor(pos)`: returned value and reader afterwards. -/
def ReadCursor.waitFor (r : ReadCursor) (mem : Mem) (pos : Int) :
    Except Fault (Int × ReadCursor) :=
  match r.barrier_.waitFor mem pos with
  | .error f => .error f
  | .ok (m, b) =>
      match add64 m 1 with
      | .error f => .error f
      | .ok e => .ok (e, { r with end_ := e, barrier_ := b })

/-- Call `ReadCursor::checkEnd()`. -/
def ReadCursor.checkEnd (r : ReadCursor) (mem : Mem) : Except Fault (Int × ReadCursor) :=
  match add64 (r.barrier_.getMin mem).1 1 with
  | .error f => .error f
  | .ok e => .ok (e, { r with end_ := e, barrier_ := (r.barrier_.getMin mem).2 })

/-- State of a `WriteCursor`. -/
structure WriteCursor extends EventCursor where
  size_ : Int
deriving DecidableEq

/-- Constructor `WriteCursor(s)`. -/
def WriteCursor.new (s : Int) : WriteCursor :=
  { begin_ := 0, end_ := s, barrier_ := SequenceBarrier.new, cursor_ := -1, size_ := s }

/-- Call `follows(e)` on a writer. -/
def WriteCursor.follows (w : WriteCursor) (e : Nat) : WriteCursor :=
  { w with toEventCursor := w.toEventCursor.follows e }

/-- Call `publish(p)` on a writer. -/
def WriteCursor.publish (w : WriteCursor) (p : Int) : Except Fault WriteCursor :=
  match w.toEventCursor.publish p with
  | .ok c => .ok { w with toEventCursor := c }
  | .error f => .error f

/-- Call `WriteCursor::waitFor(pos)`: returned value and writer afterwards. -/
def WriteCursor.waitFor (w : WriteCursor) (mem : Mem) (pos : Int) :
    Except Fault (Int × WriteCursor) :=
  match sub64 pos w.size_ with
  | .error f => .error f
  | .ok t =>
      match w.barrier_.waitFor mem t with
      | .error f => .error f
      | .ok (min, b) =>
          match (if min = INT64_MAX then add64 pos w.size_ else add64 min w.size_) with
          | .error f => .error f
          | .ok s =>
              match add64 s 1 with
              | .error f => .error f
              | .ok e => .ok (e, { w with end_ := e, barrier_ := b })

/-- Call `WriteCursor::checkEnd()`. -/
def WriteCursor.checkEnd (w : WriteCursor) (mem : Mem) : Except Fault (Int × WriteCursor) :=
  match add64 (w.barrier_.getMin mem).1 w.size_ with
  | .error f => .error f
  | .ok e => .ok (e, { w with end_ := e, barrier_ := (w.barrier_.getMin mem).2 })

/-! ## Driver loop of the consumer (`main.cpp`, child process) -/

/-- One iteration of the consumer loop: `if (begin() == end()) waitFor(end());`
then the slot at `begin()` is read and `publish(begin())` is called. The
result is the position whose slot was read, and the reader afterwards. -/
def ReadCursor.drive (r : ReadCursor) (mem : Mem) : Except Fault (Int × ReadCursor) :=
  match (if r.begin_ = r.end_ then
          (match r.waitFor mem r.end_ with
            | .ok (_, r1) => .ok r1
            | .error f => .error f)
         else (.ok r : Except Fault ReadCursor)) with
  | .error f => .error f
  | .ok r1 =>
      match r1.publish r1.begin_ with
      | .ok r2 => .ok (r1.begin_, r2)
      | .error f => .error f

/-- Positions read by `n` successive iterations of the consumer loop. -/
def ReadCursor.driveTrace : Nat → ReadCursor → Mem → Except Fault (List Int)
  | 0, _, _ => .ok []
  | n + 1, r, mem =>
      match r.drive mem with
      | .error f => .error f
      | .ok (p, r1) =>
          match ReadCursor.driveTrace n r1 mem with
          | .ok ps => .ok (p :: ps)
          | .error f => .error f

/-! ## Sequences of operations on one cursor -/

/-- Operations on a cursor and on its surroundings. -/
inductive Op where
  /-- call `follows(e)` on the cursor -/
  | follows (e : Nat)
  /-- call `waitFor(pos)` on the cursor -/
  | waitFor (pos : Int)
  /-- call `checkEnd()` on the cursor -/
  | checkEnd
  /-- call `publish(begin())` on the cursor -/
  | publish
  /-- another cursor `c` stores `v` in its own sequence -/
  | advance (c : Nat) (v : Int)
deriving DecidableEq

/-- Store of `v` by cursor `c`; a published position never decreases and is
an `int64_t`. -/
def advanceMem (mem : Mem) (c : Nat) (v : Int) : Except Fault Mem :=
  if mem c ≤ v ∧ v ≤ INT64_MAX then .ok (fun i => if i = c then v else mem i)
  else .error .rejected

/-- Memory in which every cursor is freshly constructed (both cursor
constructors store `-1`). -/
def Mem.fresh : Mem := fun _ => -1

/-- One operation on a writer and the memory around it. The argument of
`waitFor` is an `int64_t`. -/
def WriteCursor.step (s : WriteCursor × Mem) : Op → Except Fault (WriteCursor × Mem)
  | .follows e => .ok (s.1.follows e, s.2)
  | .waitFor pos =>
      if INT64_MIN ≤ pos ∧ pos ≤ INT64_MAX then
        match s.1.waitFor s.2 pos with
        | .ok (_, w) => .ok (w, s.2)
        | .error f => .error f
      else .error .rejected
  | .checkEnd =>
      match s.1.checkEnd s.2 with
      | .ok (_, w) => .ok (w, s.2)
      | .error f => .error f
  | .publish =>
      match s.1.publish s.1.begin_ with
      | .ok w => .ok (w, s.2)
      | .error f => .error f
  | .advance c v =>
      match advanceMem s.2 c v with
      | .ok mem => .ok (s.1, mem)
      | .error f => .error f

/-- Run a sequence of operations with the step function `step`; `guard` says
which operations the scenario admits in which cursor state (`view` gives the
cursor of a state). -/
def runOps {σ : Type} (step : σ → Op → Except Fault σ) (view : σ → EventCursor)
    (guard : EventCursor → Op → Bool) : List Op → σ → Except Fault σ
  | [], s => .ok s
  | o :: os, s =>
      if guard (view s) o then
        match step s o with
        | .ok s1 => runOps step view guard os s1
        | .error f => .error f
      else .error .rejected

/-- Run a sequence of operations on a writer. -/
def WriteCursor.run (guard : EventCursor → Op → Bool) (ops : List Op)
    (s : WriteCursor × Mem) : Except Fault (WriteCursor × Mem) :=
  runOps WriteCursor.step (fun s => s.1.toEventCursor) guard ops s

/-- One operation on a reader and the memory around it. -/
def ReadCursor.step (s : ReadCursor × Mem) : Op → Except Fault (ReadCursor × Mem)
  | .follows e => .ok (s.1.follows e, s.2)
  | .waitFor pos =>
      if INT64_MIN ≤ pos ∧ pos ≤ INT64_MAX then
        match s.1.waitFor s.2 pos with
        | .ok (_, r) => .ok (r, s.2)
        | .error f => .error f
      else .error .rejected
  | .checkEnd =>
      match s.1.checkEnd s.2 with
      | .ok (_, r) => .ok (r, s.2)
      | .error f => .error f
  | .publish =>
      match s.1.publish s.1.begin_ with
      | .ok r => .ok (r, s.2)
      | .error f => .error f
  | .advance c v =>
      match advanceMem s.2 c v with
      | .ok mem => .ok (s.1, mem)
      | .error f => .error f

/-- Run a sequence of operations on a reader. -/
def ReadCursor.run (guard : EventCursor → Op → Bool) (ops : List Op)
    (s : ReadCursor × Mem) : Except Fault (ReadCursor × Mem) :=
  runOps ReadCursor.step (fun s => s.1.toEventCursor) guard ops s

/-- Every operation is admitted. -/
def anyOp : EventCursor → Op → Bool := fun _ _ => true

/-- Admits `publish(begin())` only while `begin() < end()`. -/
def publishInWindow : EventCursor → Op → Bool
  | c, .publish => decide (c.begin_ < c.end_)
  | _, _ => true

/-- Driver discipline of `main.cpp`: `waitFor` is called with `end()`,
`publish(begin())` only while `begin() < end()`, and `checkEnd` is not
used. -/
def driverOps : EventCursor → Op → Bool
  | c, .publish => decide (c.begin_ < c.end_)
  | c, .waitFor pos => decide (pos = c.end_)
  | _, .checkEnd => false
  | _, _ => true

/-- A registration. -/
def Op.isFollows : Op → Bool
  | .follows _ => true
  | _ => false

/-- An operation that recomputes the window: `waitFor` or `checkEnd`. -/
def Op.isWindowOp : Op → Bool
  | .waitFor _ => true
  | .checkEnd => true
  | _ => false

/-- The follow graph is wired during setup: no `follows` comes after the
first `waitFor` or `checkEnd`. -/
def setupFirst : List Op → Bool
  | [] => true
  | o :: rest =>
      if o.isWindowOp then (o :: rest).all (fun o1 => !o1.isFollows) else setupFirst rest

/-! ## The producer loop (`main.cpp`, parent process) as guarded operations -/

/-- Run a sequence of operations; `guard` says which operations the scenario
admits in which state of the cursor and of the memory around it. -/
def runOpsOn {σ : Type} (step : σ → Op → Except Fault σ) (guard : σ → Op → Bool) :
    List Op → σ → Except Fault σ
  | [], s => .ok s
  | o :: os, s =>
      if guard s o then
        match step s o with
        | .ok s1 => runOpsOn step guard os s1
        | .error f => .error f
      else .error .rejected

/-- Producer loop of `main.cpp` around a writer: `waitFor(end())` is called
only when `begin() == end()`, then `publish(begin())` follows; `checkEnd` is
not used. A registered follower never publishes beyond the writer's own
published position, and a cursor is not beyond it when it is registered. -/
def lapOps : WriteCursor × Mem → Op → Bool
  | s, .publish => decide (s.1.begin_ < s.1.end_)
  | s, .waitFor pos => decide (pos = s.1.end_ ∧ s.1.begin_ = s.1.end_)
  | _, .checkEnd => false
  | s, .follows e => decide (s.2 e ≤ s.1.cursor_)
  | s, .advance c v => decide (c ∈ s.1.barrier_.followers → v ≤ s.1.cursor_)

/-- The producer loop in which `waitFor` is only called once a follower is
registered. -/
def lapOpsFollowed : WriteCursor × Mem → Op → Bool
  | s, .waitFor pos =>
      decide (pos = s.1.end_ ∧ s.1.begin_ = s.1.end_ ∧ s.1.barrier_.followers ≠ [])
  | s, o => lapOps s o

/-! ## Sequences of calls on one barrier -/

/-- Calls on a barrier and stores by the cursors it follows. -/
inductive BarrierOp where
  /-- call `getMin()` -/
  | getMin
  /-- call `waitFor(pos)` -/
  | waitFor (pos : Int)
  /-- cursor `c` stores `v` in its own sequence -/
  | advance (c : Nat) (v : Int)
deriving DecidableEq

/-- One operation on a barrier: the value a call returns (nothing for a
store), and the barrier and the memory afterwards. The argument of `waitFor`
is an `int64_t`. -/
def SequenceBarrier.step (s : SequenceBarrier × Mem) :
    BarrierOp → Except Fault (Option Int × (SequenceBarrier × Mem))
  | .getMin => .ok (some (s.1.getMin s.2).1, ((s.1.getMin s.2).2, s.2))
  | .waitFor pos =>
      if INT64_MIN ≤ pos ∧ pos ≤ INT64_MAX then
        match s.1.waitFor s.2 pos with
        | .ok (m, b) => .ok (some m, (b, s.2))
        | .error f => .error f
      else .error .rejected
  | .advance c v =>
      match advanceMem s.2 c v with
      | .ok mem => .ok (none, (s.1, mem))
      | .error f => .error f

/-- For every call of a sequence, in order: the value returned and the cached
minimum `last_min_` after the call. -/
def SequenceBarrier.trace :
    List BarrierOp → SequenceBarrier × Mem → Except Fault (List (Int × Int))
  | [], _ => .ok []
  | o :: os, s =>
      match SequenceBarrier.step s o with
      | .error f => .error f
      | .ok (ret, s1) =>
          match SequenceBarrier.trace os s1 with
          | .error f => .error f
          | .ok tr =>
              .ok (match ret with
                   | some m => (m, s1.1.last_min_) :: tr
                   | none => tr)

/-! ## Invariants -/

/-- Slot array in which the registered followers fill a prefix. -/
def SequenceBarrier.WF (b : SequenceBarrier) : Prop :=
  ∃ (fs : List Nat) (n : Nat), b.limit_seq_ = fs.map some ++ List.replicate n none

/-- Published positions are `int64_t` values not below `-1`. -/
def Mem.Bounded (mem : Mem) : Prop :=
  ∀ c, -1 ≤ mem c ∧ mem c ≤ INT64_MAX

/-- Gating invariant of a writer of capacity `S`: the cache and the window
end are covered by every registered follower. -/
def WriteCursor.Gated (S : Int) (s : WriteCursor × Mem) : Prop :=
  s.1.size_ = S ∧ s.1.barrier_.WF ∧ s.2.Bounded ∧
  ∀ c ∈ s.1.barrier_.followers,
    s.1.barrier_.last_min_ ≤ s.2 c ∧ s.1.end_ ≤ s.2 c + S + 1

/-- Invariant of a writer during setup: the window is the initial one and the
cache is untouched. -/
def WriteCursor.InSetup (S : Int) (s : WriteCursor × Mem) : Prop :=
  s.1.size_ = S ∧ s.1.barrier_.WF ∧ s.2.Bounded ∧
  s.1.end_ = S ∧ s.1.barrier_.last_min_ = -1

/-- Gating invariant of a reader: the cache is covered by every registered
follower, and so is the window end unless the window is empty. -/
def ReadCursor.Gated (s : ReadCursor × Mem) : Prop :=
  s.1.barrier_.WF ∧ s.2.Bounded ∧
  ∀ c ∈ s.1.barrier_.followers,
    s.1.barrier_.last_min_ ≤ s.2 c ∧ (s.1.end_ ≤ s.1.begin_ ∨ s.1.end_ ≤ s.2 c + 1)

/-- Invariant of a reader during setup: the window is empty and the cache is
untouched. -/
def ReadCursor.InSetup (s : ReadCursor × Mem) : Prop :=
  s.1.barrier_.WF ∧ s.2.Bounded ∧ s.1.end_ ≤ s.1.begin_ ∧ s.1.barrier_.last_min_ = -1

/-- Invariant of the producer loop: the writer's published position is one
below `begin`, no registered follower and no cached minimum is beyond it, and
the window holds at most `S` positions. -/
def WriteCursor.OneLap (S : Int) (s : WriteCursor × Mem) : Prop :=
  s.1.size_ = S ∧ s.1.barrier_.WF ∧ s.2.Bounded ∧
  s.1.begin_ = s.1.cursor_ + 1 ∧ s.1.begin_ ≤ INT64_MAX ∧
  s.1.barrier_.last_min_ ≤ s.1.cursor_ ∧
  (∀ c ∈ s.1.barrier_.followers, s.2 c ≤ s.1.cursor_) ∧
  s.1.end_ - s.1.begin_ ≤ S

/-- Invariant of a reader once its window has been computed from the barrier:
the cache and the window end are covered by every registered follower. -/
def ReadCursor.Covered (s : ReadCursor × Mem) : Prop :=
  s.1.barrier_.WF ∧ s.2.Bounded ∧
  ∀ c ∈ s.1.barrier_.followers,
    s.1.barrier_.last_min_ ≤ s.2 c ∧ s.1.end_ ≤ s.2 c + 1

/-- Invariant of a barrier whose cache is covered by every registered
follower. -/
def SequenceBarrier.CacheBelow (s : SequenceBarrier × Mem) : Prop :=
  s.1.WF ∧ s.2.Bounded ∧ ∀ c ∈ s.1.followers, s.1.last_min_ ≤ s.2 c

/-! ## Slot arrays -/

theorem followsSlots_free_slot (e : Nat) (fs : List Nat) (rest : List (Option Nat)) :
    followsSlots e (fs.map some ++ none :: rest) = (fs ++ [e]).map some ++ rest := by
  induction fs with
  | nil => simp [followsSlots]
  | cons c cs ih => simp [followsSlots, ih]

theorem followsSlots_full (e : Nat) (fs : List Nat) :
    followsSlots e (fs.map some) = fs.map some := by
  induction fs with
  | nil => simp [followsSlots]
  | cons c cs ih => simp [followsSlots, ih]

theorem followers_slots (fs : List Nat) (n : Nat) (m : Int) :
    SequenceBarrier.followers { limit_seq_ := fs.map some ++ List.replicate n none,
                                last_min_ := m } = fs := by
  unfold SequenceBarrier.followers
  induction fs with
  | nil =>
      induction n with
      | zero => simp
      | succ k ih => simp [List.replicate_succ]
  | cons c cs ih => simp

theorem followers_of_slots {b : SequenceBarrier} {fs : List Nat} {n : Nat}
    (h : b.limit_seq_ = fs.map some ++ List.replicate n none) : b.followers = fs := by
  cases b with
  | mk l m =>
      simp only at h
      subst h
      exact followers_slots fs n m

theorem WF_new : SequenceBarrier.new.WF :=
  ⟨[], MAX_FOLLOWERS, by simp [SequenceBarrier.new]⟩

theorem WF_follows {b : SequenceBarrier} (h : b.WF) (e : Nat) : (b.follows e).WF := by
  obtain ⟨fs, n, hl⟩ := h
  cases n with
  | zero =>
      refine ⟨fs, 0, ?_⟩
      simp only [SequenceBarrier.follows, hl, List.replicate_zero, List.append_nil]
      exact followsSlots_full e fs
  | succ k =>
      refine ⟨fs ++ [e], k, ?_⟩
      simp only [SequenceBarrier.follows, hl, List.replicate_succ]
      exact followsSlots_free_slot e fs _

theorem mem_followers_follows {b : SequenceBarrier} (e c : Nat)
    (h : c ∈ (b.follows e).followers) : c ∈ b.followers ∨ c = e := by
  cases b with
  | mk l m =>
      simp only [SequenceBarrier.follows, SequenceBarrier.followers] at h ⊢
      induction l with
      | nil => simp [followsSlots] at h
      | cons s rest ih =>
          cases s with
          | none =>
              simp only [followsSlots, List.filterMap_cons, id_eq, List.mem_cons] at h ⊢
              rcases h with h | h
              · exact Or.inr h
              · exact Or.inl h
          | some d =>
              simp only [followsSlots, List.filterMap_cons, id_eq, List.mem_cons] at h ⊢
              rcases h with h | h
              · exact Or.inl (Or.inl h)
              · rcases ih h with h1 | h1
                · exact Or.inl (Or.inr h1)
                · exact Or.inr h1

theorem foldl_follows_slots (fs : List Nat) (hk : fs.length ≤ MAX_FOLLOWERS) :
    (fs.foldl SequenceBarrier.follows SequenceBarrier.new).limit_seq_ =
      fs.map some ++ List.replicate (MAX_FOLLOWERS - fs.length) none := by
  induction fs using List.reverseRecOn with
  | nil => simp [SequenceBarrier.new]
  | append_singleton cs c ih =>
      have hlen : cs.length + 1 ≤ MAX_FOLLOWERS := by simpa using hk
      have hcs := ih (by omega)
      rw [List.foldl_append]
      simp only [List.foldl_cons, List.foldl_nil, SequenceBarrier.follows, hcs]
      have hr : MAX_FOLLOWERS - cs.length = (MAX_FOLLOWERS - (cs ++ [c]).length) + 1 := by
        simp only [List.length_append, List.length_singleton]
        omega
      rw [hr, List.replicate_succ]
      exact followsSlots_free_slot c cs _

/-! ## The scans of the barrier -/

theorem getMinScan_spec (mem : Mem) (fs : List Nat) (n : Nat) (acc : Int) :
    getMinScan mem (fs.map some ++ List.replicate n none) acc ≤ acc ∧
    (∀ c ∈ fs, getMinScan mem (fs.map some ++ List.replicate n none) acc ≤ mem c) ∧
    (getMinScan mem (fs.map some ++ List.replicate n none) acc = acc ∨
      ∃ c ∈ fs, getMinScan mem (fs.map some ++ List.replicate n none) acc = mem c) := by
  induction fs generalizing acc with
  | nil =>
      cases n with
      | zero => simp [getMinScan]
      | succ k => simp [getMinScan, List.replicate_succ]
  | cons c cs ih =>
      have hstep : getMinScan mem ((c :: cs).map some ++ List.replicate n none) acc =
          getMinScan mem (cs.map some ++ List.replicate n none)
            (if mem c < acc then mem c else acc) := rfl
      rw [hstep]
      obtain ⟨h1, h2, h3⟩ := ih (if mem c < acc then mem c else acc)
      by_cases hlt : mem c < acc
      · rw [if_pos hlt] at h1 h2 h3 ⊢
        refine ⟨by omega, ?_, ?_⟩
        · intro d hd
          rcases List.mem_cons.mp hd with hd | hd
          · subst hd
            exact h1
          · exact h2 d hd
        · rcases h3 with h3 | ⟨d, hd, h3⟩
          · exact Or.inr ⟨c, List.mem_cons_self _ _, h3⟩
          · exact Or.inr ⟨d, List.mem_cons_of_mem _ hd, h3⟩
      · rw [if_neg hlt] at h1 h2 h3 ⊢
        refine ⟨h1, ?_, ?_⟩
        · intro d hd
          rcases List.mem_cons.mp hd with hd | hd
          · subst hd
            omega
          · exact h2 d hd
        · rcases h3 with h3 | ⟨d, hd, h3⟩
          · exact Or.inl h3
          · exact Or.inr ⟨d, List.mem_cons_of_mem _ hd, h3⟩

theorem waitForScan_spec (mem : Mem) (pos : Int) (fs : List Nat) (n : Nat) (acc r : Int)
    (h : waitForScan mem pos (fs.map some ++ List.replicate n none) acc = some r) :
    r ≤ acc ∧ (∀ c ∈ fs, r ≤ toInt32 (mem c)) ∧ (∀ c ∈ fs, pos ≤ toInt32 (mem c)) ∧
    (r = acc ∨ ∃ c ∈ fs, r = toInt32 (mem c)) := by
  induction fs generalizing acc with
  | nil =>
      cases n with
      | zero =>
          simp [waitForScan] at h
          simp [h]
      | succ k =>
          simp [waitForScan, List.replicate_succ] at h
          simp [h]
  | cons c cs ih =>
      simp only [List.map_cons, List.cons_append, waitForScan] at h
      by_cases hge : toInt32 (mem c) ≥ pos
      · rw [if_pos hge] at h
        obtain ⟨h1, h2, h3, h4⟩ := ih _ h
        refine ⟨?_, ?_, ?_, ?_⟩
        · split at h1 <;> omega
        · intro d hd
          rcases List.mem_cons.mp hd with hd | hd
          · subst hd
            split at h1 <;> omega
          · exact h2 d hd
        · intro d hd
          rcases List.mem_cons.mp hd with hd | hd
          · subst hd
            exact hge
          · exact h3 d hd
        · rcases h4 with h4 | ⟨d, hd, h4⟩
          · by_cases hlt : toInt32 (mem c) < acc
            · rw [if_pos hlt] at h4
              exact Or.inr ⟨c, List.mem_cons_self _ _, h4⟩
            · rw [if_neg hlt] at h4
              exact Or.inl h4
          · exact Or.inr ⟨d, List.mem_cons_of_mem _ hd, h4⟩
      · rw [if_neg hge] at h
        exact absurd h (by simp)

theorem waitForScan_ge (mem : Mem) (pos : Int) (l : List (Option Nat)) (acc r : Int)
    (h : waitForScan mem pos l acc = some r) (hacc : pos ≤ acc) : pos ≤ r := by
  induction l generalizing acc with
  | nil =>
      simp [waitForScan] at h
      omega
  | cons s rest ih =>
      cases s with
      | none =>
          simp [waitForScan] at h
          omega
      | some c =>
          simp only [waitForScan] at h
          by_cases hge : toInt32 (mem c) ≥ pos
          · rw [if_pos hge] at h
            refine ih _ h ?_
            split <;> omega
          · rw [if_neg hge] at h
            exact absurd h (by simp)

theorem waitForScan_no_followers (mem : Mem) (pos : Int) (l : List (Option Nat)) (acc : Int)
    (h : l.filterMap id = []) : waitForScan mem pos l acc = some acc := by
  cases l with
  | nil => simp [waitForScan]
  | cons s rest =>
      cases s with
      | none => simp [waitForScan]
      | some c => simp at h

theorem toInt32_le (x : Int) (h : -2147483648 ≤ x) : toInt32 x ≤ x := by
  unfold toInt32
  omega

theorem toInt32_lt (x : Int) : toInt32 x < 2147483648 := by
  unfold toInt32
  omega

/-! ## Inversion of the checked operations -/

theorem add64_ok {a b e : Int} (h : add64 a b = .ok e) :
    e = a + b ∧ INT64_MIN ≤ e ∧ e ≤ INT64_MAX := by
  unfold add64 at h
  split at h
  · cases h
    omega
  · cases h

theorem sub64_ok {a b e : Int} (h : sub64 a b = .ok e) :
    e = a - b ∧ INT64_MIN ≤ e ∧ e ≤ INT64_MAX := by
  unfold sub64 at h
  split at h
  · cases h
    omega
  · cases h

theorem barrier_waitFor_ok {b b1 : SequenceBarrier} {mem : Mem} {pos m : Int}
    (h : b.waitFor mem pos = .ok (m, b1)) :
    b1.limit_seq_ = b.limit_seq_ ∧
    ((pos ≤ m ∧ m = b.last_min_ ∧ b1 = b) ∨
     (b.last_min_ < pos ∧ waitForScan mem pos b.limit_seq_ INT64_MAX = some m ∧
      (b1.last_min_ = m ∨ (m = INT64_MAX ∧ b1 = b)))) := by
  unfold SequenceBarrier.waitFor at h
  split at h
  · cases h
    exact ⟨rfl, Or.inl ⟨by omega, rfl, rfl⟩⟩
  · rename_i hlt
    split at h
    · cases h
    · rename_i r hscan
      split at h
      · cases h
        rename_i hmax
        exact ⟨rfl, Or.inr ⟨by omega, hscan, Or.inr ⟨hmax, rfl⟩⟩⟩
      · cases h
        exact ⟨rfl, Or.inr ⟨by omega, hscan, Or.inl rfl⟩⟩

theorem barrier_waitFor_ge {b b1 : SequenceBarrier} {mem : Mem} {pos m : Int}
    (h : b.waitFor mem pos = .ok (m, b1)) (hpos : pos ≤ INT64_MAX) : pos ≤ m := by
  rcases (barrier_waitFor_ok h).2 with ⟨h1, _, _⟩ | ⟨_, hscan, _⟩
  · exact h1
  · exact waitForScan_ge mem pos _ _ _ hscan hpos

theorem writer_waitFor_ok {w w1 : WriteCursor} {mem : Mem} {pos e : Int}
    (h : w.waitFor mem pos = .ok (e, w1)) :
    ∃ m b, INT64_MIN ≤ pos - w.size_ ∧ pos - w.size_ ≤ INT64_MAX ∧
      w.barrier_.waitFor mem (pos - w.size_) = .ok (m, b) ∧
      e = (if m = INT64_MAX then pos else m) + w.size_ + 1 ∧
      w1 = { w with end_ := e, barrier_ := b } := by
  unfold WriteCursor.waitFor at h
  split at h
  · cases h
  · rename_i t ht
    obtain ⟨ht1, ht2, ht3⟩ := sub64_ok ht
    subst ht1
    split at h
    · cases h
    · rename_i m b hb
      split at h
      · cases h
      · rename_i s hs
        split at h
        · cases h
        · rename_i e1 he
          cases h
          refine ⟨m, b, ht2, ht3, hb, ?_, rfl⟩
          obtain ⟨he1, _, _⟩ := add64_ok he
          split at hs
          · obtain ⟨hs1, _, _⟩ := add64_ok hs
            rw [if_pos (by assumption)]
            omega
          · obtain ⟨hs1, _, _⟩ := add64_ok hs
            rw [if_neg (by assumption)]
            omega

theorem writer_checkEnd_ok {w w1 : WriteCursor} {mem : Mem} {e : Int}
    (h : w.checkEnd mem = .ok (e, w1)) :
    e = (w.barrier_.getMin mem).1 + w.size_ ∧
    w1 = { w with end_ := e, barrier_ := (w.barrier_.getMin mem).2 } := by
  unfold WriteCursor.checkEnd at h
  split at h
  · cases h
  · rename_i e1 he
    cases h
    exact ⟨(add64_ok he).1, rfl⟩

theorem writer_publish_ok {w w1 : WriteCursor} {p : Int} (h : w.publish p = .ok w1) :
    w1.begin_ = p + 1 ∧ w1.end_ = w.end_ ∧ w1.barrier_ = w.barrier_ ∧ w1.size_ = w.size_ ∧
    w1.cursor_ = p := by
  unfold WriteCursor.publish EventCursor.publish at h
  split at h
  · rename_i c hc
    split at hc
    · rename_i b hb
      cases hc
      cases h
      exact ⟨(add64_ok hb).1, rfl, rfl, rfl, rfl⟩
    · cases hc
  · cases h

theorem reader_waitFor_ok {r r1 : ReadCursor} {mem : Mem} {pos e : Int}
    (h : r.waitFor mem pos = .ok (e, r1)) :
    ∃ m b, r.barrier_.waitFor mem pos = .ok (m, b) ∧ e = m + 1 ∧
      r1 = { r with end_ := e, barrier_ := b } := by
  unfold ReadCursor.waitFor at h
  split at h
  · cases h
  · rename_i m b hb
    split at h
    · cases h
    · rename_i e1 he
      cases h
      exact ⟨m, b, hb, (add64_ok he).1, rfl⟩

theorem reader_checkEnd_ok {r r1 : ReadCursor} {mem : Mem} {e : Int}
    (h : r.checkEnd mem = .ok (e, r1)) :
    e = (r.barrier_.getMin mem).1 + 1 ∧
    r1 = { r with end_ := e, barrier_ := (r.barrier_.getMin mem).2 } := by
  unfold ReadCursor.checkEnd at h
  split at h
  · cases h
  · rename_i e1 he
    cases h
    exact ⟨(add64_ok he).1, rfl⟩

theorem reader_publish_ok {r r1 : ReadCursor} {p : Int} (h : r.publish p = .ok r1) :
    r1.begin_ = p + 1 ∧ r1.end_ = r.end_ ∧ r1.barrier_ = r.barrier_ ∧ r1.cursor_ = p := by
  unfold ReadCursor.publish EventCursor.publish at h
  split at h
  · rename_i c hc
    split at hc
    · rename_i b hb
      cases hc
      cases h
      exact ⟨(add64_ok hb).1, rfl, rfl, rfl⟩
    · cases hc
  · cases h

theorem advanceMem_ok {mem mem1 : Mem} {c : Nat} {v : Int}
    (h : advanceMem mem c v = .ok mem1) :
    v ≤ INT64_MAX ∧ ∀ i, mem i ≤ mem1 i ∧ (mem1 i = mem i ∨ mem1 i = v) := by
  unfold advanceMem at h
  split at h
  · rename_i hv
    cases h
    refine ⟨hv.2, ?_⟩
    intro i
    by_cases hi : i = c
    · subst hi
      refine ⟨?_, Or.inr ?_⟩
      · simpa using hv.1
      · simp
    · refine ⟨?_, Or.inl ?_⟩
      · simp [hi]
      · simp [hi]
  · cases h

theorem advanceMem_bounded {mem mem1 : Mem} {c : Nat} {v : Int}
    (h : advanceMem mem c v = .ok mem1) (hb : mem.Bounded) : mem1.Bounded := by
  obtain ⟨hv, hall⟩ := advanceMem_ok h
  intro i
  obtain ⟨h1, h2⟩ := hall i
  have := hb i
  rcases h2 with h2 | h2 <;> omega

/-! ## Runs -/

theorem runOps_invariant {σ : Type} (step : σ → Op → Except Fault σ) (view : σ → EventCursor)
    (guard : EventCursor → Op → Bool) (P : σ → Prop)
    (hstep : ∀ s o s1, guard (view s) o = true → step s o = .ok s1 → P s → P s1) :
    ∀ (ops : List Op) (s s1 : σ), runOps step view guard ops s = .ok s1 → P s → P s1 := by
  intro ops
  induction ops with
  | nil =>
      intro s s1 h hP
      simp only [runOps] at h
      cases h
      exact hP
  | cons o os ih =>
      intro s s1 h hP
      simp only [runOps] at h
      split at h
      · rename_i hg
        split at h
        · rename_i s2 hs2
          exact ih s2 s1 h (hstep s o s2 hg hs2 hP)
        · cases h
      · cases h

theorem runOps_two_phase {σ : Type} (step : σ → Op → Except Fault σ) (view : σ → EventCursor)
    (P Q : σ → Prop) (hPQ : ∀ s, P s → Q s)
    (hP : ∀ s o s1, o.isWindowOp = false → step s o = .ok s1 → P s → P s1)
    (hQ : ∀ s o s1, o.isFollows = false → step s o = .ok s1 → Q s → Q s1) :
    ∀ (ops : List Op) (s s1 : σ), setupFirst ops = true →
      runOps step view anyOp ops s = .ok s1 → P s → Q s1 := by
  have steady : ∀ (ops : List Op) (s s1 : σ), ops.all (fun o1 => !o1.isFollows) = true →
      runOps step view anyOp ops s = .ok s1 → Q s → Q s1 := by
    intro ops
    induction ops with
    | nil =>
        intro s s1 _ h hQs
        simp only [runOps] at h
        cases h
        exact hQs
    | cons o os ih =>
        intro s s1 hall h hQs
        simp only [List.all_cons, Bool.and_eq_true, Bool.not_eq_true'] at hall
        simp only [runOps, anyOp, if_true] at h
        split at h
        · rename_i s2 hs2
          exact ih s2 s1 hall.2 h (hQ s o s2 hall.1 hs2 hQs)
        · cases h
  intro ops
  induction ops with
  | nil =>
      intro s s1 _ h hPs
      simp only [runOps] at h
      cases h
      exact hPQ s hPs
  | cons o os ih =>
      intro s s1 hsetup h hPs
      by_cases hw : o.isWindowOp = true
      · simp only [setupFirst, hw, if_true] at hsetup
        exact steady (o :: os) s s1 hsetup h (hPQ s hPs)
      · have hw1 : o.isWindowOp = false := by simpa using hw
        simp only [setupFirst, hw1] at hsetup
        simp only [runOps, anyOp, if_true] at h
        split at h
        · rename_i s2 hs2
          exact ih s2 s1 (by simpa using hsetup) h (hP s o s2 hw1 hs2 hPs)
        · cases h

/-! ## What the barrier returns lies below every follower -/

theorem WF_of_slots_eq {b b1 : SequenceBarrier} (h : b1.limit_seq_ = b.limit_seq_)
    (hwf : b.WF) : b1.WF := by
  obtain ⟨fs, n, hl⟩ := hwf
  exact ⟨fs, n, h.trans hl⟩

theorem followers_of_slots_eq {b b1 : SequenceBarrier} (h : b1.limit_seq_ = b.limit_seq_) :
    b1.followers = b.followers := by
  unfold SequenceBarrier.followers
  rw [h]

theorem barrier_waitFor_le {b b1 : SequenceBarrier} {mem : Mem} {pos m : Int}
    (hwf : b.WF) (hmem : mem.Bounded) (hcache : ∀ c ∈ b.followers, b.last_min_ ≤ mem c)
    (h : b.waitFor mem pos = .ok (m, b1)) :
    ∀ c ∈ b.followers, m ≤ mem c ∧ b1.last_min_ ≤ mem c := by
  intro c hc
  rcases (barrier_waitFor_ok h).2 with ⟨_, h2, h3⟩ | ⟨_, hscan, h3⟩
  · subst h3
    have := hcache c hc
    omega
  · obtain ⟨fs, n, hl⟩ := hwf
    rw [followers_of_slots hl] at hc
    rw [hl] at hscan
    obtain ⟨_, hle, _, _⟩ := waitForScan_spec mem pos fs n INT64_MAX m hscan
    have h1 := hle c hc
    have h2 := toInt32_le (mem c) (by have := (hmem c).1; omega)
    rcases h3 with h3 | ⟨_, h3⟩
    · omega
    · subst h3
      have := hcache c (by rw [followers_of_slots hl]; exact hc)
      omega

theorem barrier_getMin_le {b : SequenceBarrier} (mem : Mem) (hwf : b.WF) :
    ∀ c ∈ b.followers, (b.getMin mem).1 ≤ mem c := by
  intro c hc
  obtain ⟨fs, n, hl⟩ := hwf
  rw [followers_of_slots hl] at hc
  simp only [SequenceBarrier.getMin, hl]
  exact (getMinScan_spec mem fs n INT64_MAX).2.1 c hc

/-! ## Steps of a writer -/

theorem writer_setup_gated (S : Int) (s : WriteCursor × Mem) (h : WriteCursor.InSetup S s) :
    WriteCursor.Gated S s := by
  obtain ⟨h1, h2, h3, h4, h5⟩ := h
  refine ⟨h1, h2, h3, ?_⟩
  intro c _
  have := (h3 c).1
  omega

theorem writer_step_setup (S : Int) (s : WriteCursor × Mem) (o : Op) (s1 : WriteCursor × Mem)
    (ho : o.isWindowOp = false) (hstep : WriteCursor.step s o = .ok s1)
    (h : WriteCursor.InSetup S s) : WriteCursor.InSetup S s1 := by
  obtain ⟨h1, h2, h3, h4, h5⟩ := h
  cases o with
  | follows e =>
      simp only [WriteCursor.step] at hstep
      cases hstep
      exact ⟨h1, WF_follows h2 e, h3, h4, h5⟩
  | waitFor pos => simp [Op.isWindowOp] at ho
  | checkEnd => simp [Op.isWindowOp] at ho
  | publish =>
      simp only [WriteCursor.step] at hstep
      split at hstep
      · rename_i w1 hw1
        cases hstep
        obtain ⟨_, p2, p3, p4, _⟩ := writer_publish_ok hw1
        refine ⟨by simpa [p4] using h1, by simpa [p3] using h2, h3, by simpa [p2] using h4,
          by simpa [p3] using h5⟩
      · cases hstep
  | advance c v =>
      simp only [WriteCursor.step] at hstep
      split at hstep
      · rename_i mem1 hm
        cases hstep
        exact ⟨h1, h2, advanceMem_bounded hm h3, h4, h5⟩
      · cases hstep

theorem writer_step_gated (S : Int) (s : WriteCursor × Mem) (o : Op) (s1 : WriteCursor × Mem)
    (ho : o.isFollows = false) (hstep : WriteCursor.step s o = .ok s1)
    (h : WriteCursor.Gated S s) : WriteCursor.Gated S s1 := by
  obtain ⟨h1, h2, h3, h4⟩ := h
  cases o with
  | follows e => simp [Op.isFollows] at ho
  | waitFor pos =>
      simp only [WriteCursor.step] at hstep
      split at hstep
      · rename_i hpos
        split at hstep
        · rename_i e w1 hw1
          cases hstep
          obtain ⟨m, b, _, _, hb, he, hw⟩ := writer_waitFor_ok hw1
          subst hw
          have hslots := (barrier_waitFor_ok hb).1
          have hle := barrier_waitFor_le h2 h3 (fun c hc => (h4 c hc).1) hb
          refine ⟨h1, WF_of_slots_eq hslots h2, h3, ?_⟩
          intro c hc
          simp only at hc ⊢
          rw [followers_of_slots_eq hslots] at hc
          obtain ⟨hm, hl⟩ := hle c hc
          refine ⟨hl, ?_⟩
          have hmax : INT64_MAX = 9223372036854775807 := rfl
          have := (h3 c).2
          rw [he, h1]
          split <;> omega
        · cases hstep
      · cases hstep
  | checkEnd =>
      simp only [WriteCursor.step] at hstep
      split at hstep
      · rename_i e w1 hw1
        cases hstep
        obtain ⟨he, hw⟩ := writer_checkEnd_ok hw1
        subst hw
        have hslots : (s.1.barrier_.getMin s.2).2.limit_seq_ = s.1.barrier_.limit_seq_ := rfl
        have hlast : (s.1.barrier_.getMin s.2).2.last_min_ = (s.1.barrier_.getMin s.2).1 := rfl
        refine ⟨h1, WF_of_slots_eq hslots h2, h3, ?_⟩
        intro c hc
        simp only at hc ⊢
        rw [followers_of_slots_eq hslots] at hc
        have hm := barrier_getMin_le s.2 h2 c hc
        rw [hlast, he, h1]
        exact ⟨hm, by omega⟩
      · cases hstep
  | publish =>
      simp only [WriteCursor.step] at hstep
      split at hstep
      · rename_i w1 hw1
        cases hstep
        obtain ⟨_, p2, p3, p4, _⟩ := writer_publish_ok hw1
        refine ⟨by simpa [p4] using h1, by simpa [p3] using h2, h3, ?_⟩
        intro c hc
        simp only at hc ⊢
        rw [p3] at hc ⊢
        rw [p2]
        exact h4 c hc
      · cases hstep
  | advance c v =>
      simp only [WriteCursor.step] at hstep
      split at hstep
      · rename_i mem1 hm
        cases hstep
        refine ⟨h1, h2, advanceMem_bounded hm h3, ?_⟩
        intro d hd
        have := h4 d hd
        have := ((advanceMem_ok hm).2 d).1
        simp only at *
        constructor <;> omega
      · cases hstep

theorem writer_new_setup (S : Int) : WriteCursor.InSetup S (WriteCursor.new S, Mem.fresh) := by
  refine ⟨rfl, WF_new, ?_, rfl, rfl⟩
  intro c
  simp only [Mem.fresh, INT64_MAX]
  omega

/-! ## Steps of a reader -/

theorem reader_setup_gated (s : ReadCursor × Mem) (h : ReadCursor.InSetup s) :
    ReadCursor.Gated s := by
  obtain ⟨h2, h3, h4, h5⟩ := h
  refine ⟨h2, h3, ?_⟩
  intro c _
  have := (h3 c).1
  exact ⟨by omega, Or.inl h4⟩

theorem reader_step_setup (s : ReadCursor × Mem) (o : Op) (s1 : ReadCursor × Mem)
    (ho : o.isWindowOp = false) (hstep : ReadCursor.step s o = .ok s1)
    (h : ReadCursor.InSetup s) : ReadCursor.InSetup s1 := by
  obtain ⟨h2, h3, h4, h5⟩ := h
  cases o with
  | follows e =>
      simp only [ReadCursor.step] at hstep
      cases hstep
      exact ⟨WF_follows h2 e, h3, h4, h5⟩
  | waitFor pos => simp [Op.isWindowOp] at ho
  | checkEnd => simp [Op.isWindowOp] at ho
  | publish =>
      simp only [ReadCursor.step] at hstep
      split at hstep
      · rename_i r1 hr1
        cases hstep
        obtain ⟨p1, p2, p3, _⟩ := reader_publish_ok hr1
        refine ⟨by simpa [p3] using h2, h3, ?_, by simpa [p3] using h5⟩
        simp only
        rw [p1, p2]
        omega
      · cases hstep
  | advance c v =>
      simp only [ReadCursor.step] at hstep
      split at hstep
      · rename_i mem1 hm
        cases hstep
        exact ⟨h2, advanceMem_bounded hm h3, h4, h5⟩
      · cases hstep

theorem reader_step_gated (s : ReadCursor × Mem) (o : Op) (s1 : ReadCursor × Mem)
    (ho : o.isFollows = false) (hstep : ReadCursor.step s o = .ok s1)
    (h : ReadCursor.Gated s) : ReadCursor.Gated s1 := by
  obtain ⟨h2, h3, h4⟩ := h
  cases o with
  | follows e => simp [Op.isFollows] at ho
  | waitFor pos =>
      simp only [ReadCursor.step] at hstep
      split at hstep
      · rename_i hpos
        split at hstep
        · rename_i e r1 hr1
          cases hstep
          obtain ⟨m, b, hb, he, hr⟩ := reader_waitFor_ok hr1
          subst hr
          have hslots := (barrier_waitFor_ok hb).1
          have hle := barrier_waitFor_le h2 h3 (fun c hc => (h4 c hc).1) hb
          refine ⟨WF_of_slots_eq hslots h2, h3, ?_⟩
          intro c hc
          simp only at hc ⊢
          rw [followers_of_slots_eq hslots] at hc
          obtain ⟨hm, hl⟩ := hle c hc
          exact ⟨hl, Or.inr (by omega)⟩
        · cases hstep
      · cases hstep
  | checkEnd =>
      simp only [ReadCursor.step] at hstep
      split at hstep
      · rename_i e r1 hr1
        cases hstep
        obtain ⟨he, hr⟩ := reader_checkEnd_ok hr1
        subst hr
        have hslots : (s.1.barrier_.getMin s.2).2.limit_seq_ = s.1.barrier_.limit_seq_ := rfl
        have hlast : (s.1.barrier_.getMin s.2).2.last_min_ = (s.1.barrier_.getMin s.2).1 := rfl
        refine ⟨WF_of_slots_eq hslots h2, h3, ?_⟩
        intro c hc
        simp only at hc ⊢
        rw [followers_of_slots_eq hslots] at hc
        have hm := barrier_getMin_le s.2 h2 c hc
        rw [hlast, he]
        exact ⟨hm, Or.inr (by omega)⟩
      · cases hstep
  | publish =>
      simp only [ReadCursor.step] at hstep
      split at hstep
      · rename_i r1 hr1
        cases hstep
        obtain ⟨p1, p2, p3, _⟩ := reader_publish_ok hr1
        refine ⟨by simpa [p3] using h2, h3, ?_⟩
        intro c hc
        simp only at hc ⊢
        rw [p3] at hc ⊢
        rw [p1, p2]
        obtain ⟨g1, g2⟩ := h4 c hc
        refine ⟨g1, ?_⟩
        rcases g2 with g2 | g2
        · exact Or.inl (by omega)
        · exact Or.inr g2
      · cases hstep
  | advance c v =>
      simp only [ReadCursor.step] at hstep
      split at hstep
      · rename_i mem1 hm
        cases hstep
        refine ⟨h2, advanceMem_bounded hm h3, ?_⟩
        intro d hd
        obtain ⟨g1, g2⟩ := h4 d hd
        have := ((advanceMem_ok hm).2 d).1
        simp only at *
        refine ⟨by omega, ?_⟩
        rcases g2 with g2 | g2
        · exact Or.inl g2
        · exact Or.inr (by omega)
      · cases hstep

theorem reader_new_setup (q : Int) : ReadCursor.InSetup (ReadCursor.new q, Mem.fresh) := by
  refine ⟨WF_new, ?_, le_refl _, rfl⟩
  intro c
  simp only [Mem.fresh, INT64_MAX]
  omega

/-! ## Ring index -/

theorem at_eq_emod (k : Nat) (hk : k ≤ 63) (p : Int) :
    ((RingBuffer.at_ (2 ^ k) p : Nat) : Int) = p % (2 : Int) ^ k := by
  unfold RingBuffer.at_ toUInt64
  rw [Nat.and_pow_two_sub_one_eq_mod]
  have h64 : (0 : Int) ≤ p % 18446744073709551616 := Int.emod_nonneg _ (by norm_num)
  have hd : ((2 : Int) ^ k) ∣ 18446744073709551616 := by
    have : (18446744073709551616 : Int) = 2 ^ 64 := by norm_num
    rw [this]
    exact pow_dvd_pow 2 (by omega)
  push_cast
  rw [Int.toNat_of_nonneg h64]
  exact Int.emod_emod_of_dvd p hd

theorem wrap64_emod (k : Nat) (hk : k ≤ 63) (x : Int) :
    wrap64 x % (2 : Int) ^ k = x % (2 : Int) ^ k := by
  have hd : ((2 : Int) ^ k) ∣ 18446744073709551616 := by
    have : (18446744073709551616 : Int) = 2 ^ 64 := by norm_num
    rw [this]
    exact pow_dvd_pow 2 (by omega)
  have hd2 : ((2 : Int) ^ k) ∣ 9223372036854775808 := by
    have : (9223372036854775808 : Int) = 2 ^ 63 := by norm_num
    rw [this]
    exact pow_dvd_pow 2 hk
  unfold wrap64
  rw [Int.sub_emod, Int.emod_emod_of_dvd _ hd, Int.add_emod, Int.emod_eq_zero_of_dvd hd2]
  simp

theorem wrap64_range (x : Int) : INT64_MIN ≤ wrap64 x ∧ wrap64 x ≤ INT64_MAX := by
  unfold wrap64 INT64_MIN INT64_MAX
  omega

/-- C8. For a capacity `N = 2 ^ k` that fits `size_t` (`k ≤ 63`) and every
position `p` (negative ones included), the slot index `p & (N - 1)` of
`RingBuffer::at` lies in `[0, N)`, is the non-negative remainder `p mod N`, and
is the same for `p` and for `p + N` taken with 64-bit wraparound. -/
theorem ring_index (k : Nat) (hk : k ≤ 63) (p : Int) :
    RingBuffer.at_ (2 ^ k) p < 2 ^ k ∧
    ((RingBuffer.at_ (2 ^ k) p : Nat) : Int) = p % (2 : Int) ^ k ∧
    RingBuffer.at_ (2 ^ k) (wrap64 (p + (2 : Int) ^ k)) = RingBuffer.at_ (2 ^ k) p := by
  refine ⟨?_, at_eq_emod k hk p, ?_⟩
  · unfold RingBuffer.at_
    rw [Nat.and_pow_two_sub_one_eq_mod]
    exact Nat.mod_lt _ (by positivity)
  · have h1 := at_eq_emod k hk (wrap64 (p + (2 : Int) ^ k))
    have h2 := at_eq_emod k hk p
    rw [wrap64_emod k hk, Int.add_emod_self] at h1
    exact_mod_cast h1.trans h2.symm

/-- Capacity 4 at position `-1`, and at `INT64_MAX` where `p + N` wraps. -/
theorem ring_index_witness :
    (2 ≤ 63) ∧
    (RingBuffer.at_ (2 ^ 2) (-1) < 2 ^ 2 ∧
      ((RingBuffer.at_ (2 ^ 2) (-1) : Nat) : Int) = (-1) % (2 : Int) ^ 2 ∧
      RingBuffer.at_ (2 ^ 2) (wrap64 (-1 + (2 : Int) ^ 2)) = RingBuffer.at_ (2 ^ 2) (-1)) ∧
    (RingBuffer.at_ (2 ^ 2) INT64_MAX < 2 ^ 2 ∧
      ((RingBuffer.at_ (2 ^ 2) INT64_MAX : Nat) : Int) = INT64_MAX % (2 : Int) ^ 2 ∧
      RingBuffer.at_ (2 ^ 2) (wrap64 (INT64_MAX + (2 : Int) ^ 2)) =
        RingBuffer.at_ (2 ^ 2) INT64_MAX) :=
  ⟨by decide, ring_index 2 (by decide) (-1), ring_index 2 (by decide) INT64_MAX⟩

/-! ## Barrier minimum -/

/-- C6. On a barrier on which the `k ≤ 8` cursors `fs` were registered by
successive `follows` calls, `getMin()` returns `INT64_MAX` when `k = 0`, and
otherwise the position of one of them that is below or equal to the position
of each of them: no registered follower is skipped. -/
theorem getMin_minimum (fs : List Nat) (mem : Mem) (hk : fs.length ≤ MAX_FOLLOWERS)
    (hm : ∀ c ∈ fs, mem c ≤ INT64_MAX) :
    (fs = [] →
      ((fs.foldl SequenceBarrier.follows SequenceBarrier.new).getMin mem).1 = INT64_MAX) ∧
    (fs ≠ [] →
      (∃ c ∈ fs, ((fs.foldl SequenceBarrier.follows SequenceBarrier.new).getMin mem).1 = mem c) ∧
      ∀ c ∈ fs, ((fs.foldl SequenceBarrier.follows SequenceBarrier.new).getMin mem).1 ≤ mem c) := by
  have hs := foldl_follows_slots fs hk
  obtain ⟨h1, h2, h3⟩ := getMinScan_spec mem fs (MAX_FOLLOWERS - fs.length) INT64_MAX
  simp only [SequenceBarrier.getMin, hs]
  refine ⟨?_, ?_⟩
  · intro hnil
    subst hnil
    rcases h3 with h3 | ⟨c, hc, _⟩
    · exact h3
    · simp at hc
  · intro hne
    refine ⟨?_, h2⟩
    rcases h3 with h3 | h3
    · obtain ⟨c, hc⟩ := List.exists_mem_of_ne_nil fs hne
      refine ⟨c, hc, ?_⟩
      have := h2 c hc
      have := hm c hc
      omega
    · exact h3

/-- Three followers at positions 5, 3 and 9. -/
theorem getMin_minimum_witness :
    ([0, 1, 2].length ≤ MAX_FOLLOWERS) ∧
    (([0, 1, 2].foldl SequenceBarrier.follows SequenceBarrier.new).getMin
        (fun c => if c = 0 then 5 else if c = 1 then 3 else 9)).1 ≤ 3 :=
  ⟨by decide,
   ((getMin_minimum [0, 1, 2] (fun c => if c = 0 then 5 else if c = 1 then 3 else 9)
      (by decide) (by decide)).2 (by decide)).2 1 (by decide)⟩

/-! ## Registration on a full barrier -/

/-- C10. On the barrier that holds the eight followers `1..8`, `follows(e)`
returns the barrier unchanged for every `e`: the ninth registration is
dropped, and the `void` function reports nothing. -/
theorem follows_full_is_silent :
    ([1, 2, 3, 4, 5, 6, 7, 8].foldl SequenceBarrier.follows SequenceBarrier.new).followers =
      [1, 2, 3, 4, 5, 6, 7, 8] ∧
    ∀ e : Nat,
      ([1, 2, 3, 4, 5, 6, 7, 8].foldl SequenceBarrier.follows SequenceBarrier.new).follows e =
        [1, 2, 3, 4, 5, 6, 7, 8].foldl SequenceBarrier.follows SequenceBarrier.new := by
  refine ⟨by decide, ?_⟩
  intro e
  have hs := foldl_follows_slots [1, 2, 3, 4, 5, 6, 7, 8] (by decide)
  have hf := followsSlots_full e [1, 2, 3, 4, 5, 6, 7, 8]
  generalize ([1, 2, 3, 4, 5, 6, 7, 8].foldl SequenceBarrier.follows SequenceBarrier.new) = b at hs
  cases b with
  | mk l m =>
      simp only [SequenceBarrier.follows, SequenceBarrier.mk.injEq, and_true]
      simp only at hs
      rw [hs]
      simpa [MAX_FOLLOWERS] using hf

/-! ## Narrowing in the barrier wait -/

theorem waitForScan_none_iff (mem : Mem) (pos : Int) (fs : List Nat) (n : Nat) (acc : Int) :
    waitForScan mem pos (fs.map some ++ List.replicate n none) acc = none ↔
      ∃ c ∈ fs, toInt32 (mem c) < pos := by
  induction fs generalizing acc with
  | nil =>
      cases n with
      | zero => simp [waitForScan]
      | succ k => simp [waitForScan, List.replicate_succ]
  | cons c cs ih =>
      have hstep : waitForScan mem pos ((c :: cs).map some ++ List.replicate n none) acc =
          (if toInt32 (mem c) ≥ pos then
            waitForScan mem pos (cs.map some ++ List.replicate n none)
              (if toInt32 (mem c) < acc then toInt32 (mem c) else acc)
           else none) := rfl
      rw [hstep]
      by_cases hge : toInt32 (mem c) ≥ pos
      · rw [if_pos hge, ih]
        constructor
        · rintro ⟨d, hd, hlt⟩
          exact ⟨d, List.mem_cons_of_mem _ hd, hlt⟩
        · rintro ⟨d, hd, hlt⟩
          rcases List.mem_cons.mp hd with hd | hd
          · subst hd
            omega
          · exact ⟨d, hd, hlt⟩
      · rw [if_neg hge]
        simp only [true_iff]
        exact ⟨c, List.mem_cons_self _ _, by omega⟩

/-- What the code does: with the cache below the target, the barrier wait
blocks exactly when the narrowed position of some follower is below the
target. -/
theorem barrier_waitFor_blocked_iff (b : SequenceBarrier) (mem : Mem) (pos : Int)
    (hwf : b.WF) (hcache : b.last_min_ < pos) :
    b.waitFor mem pos = .error .blocked ↔ ∃ c ∈ b.followers, toInt32 (mem c) < pos := by
  obtain ⟨fs, n, hl⟩ := hwf
  rw [followers_of_slots hl]
  rw [← waitForScan_none_iff mem pos fs n INT64_MAX, ← hl]
  unfold SequenceBarrier.waitFor
  rw [if_neg (by omega)]
  cases hscan : waitForScan mem pos b.limit_seq_ INT64_MAX with
  | none => simp
  | some r =>
      simp only [reduceCtorEq, iff_false]
      split <;> simp

/-- What the code does: when it returns after polling, the barrier wait
returns the least narrowed position of the followers. -/
theorem barrier_waitFor_polled (b b1 : SequenceBarrier) (mem : Mem) (pos m : Int)
    (hwf : b.WF) (hne : b.followers ≠ []) (hcache : b.last_min_ < pos)
    (h : b.waitFor mem pos = .ok (m, b1)) :
    (∃ c ∈ b.followers, m = toInt32 (mem c)) ∧ ∀ c ∈ b.followers, m ≤ toInt32 (mem c) := by
  obtain ⟨fs, n, hl⟩ := hwf
  rw [followers_of_slots hl] at hne ⊢
  rcases (barrier_waitFor_ok h).2 with ⟨h1, h2, _⟩ | ⟨_, hscan, _⟩
  · omega
  · rw [hl] at hscan
    obtain ⟨_, hle, _, hex⟩ := waitForScan_spec mem pos fs n INT64_MAX m hscan
    refine ⟨?_, hle⟩
    rcases hex with hex | hex
    · obtain ⟨c, hc⟩ := List.exists_mem_of_ne_nil fs hne
      have h1 := hle c hc
      have h2 := toInt32_lt (mem c)
      have hmax : INT64_MAX = 9223372036854775807 := rfl
      omega
    · exact hex

/-- What the code does: with the cache below `pos - S`, the writer's wait
blocks exactly when the narrowed position of some follower is below
`pos - S`. -/
theorem writer_waitFor_blocked_iff (w : WriteCursor) (mem : Mem) (pos : Int)
    (hwf : w.barrier_.WF) (hcache : w.barrier_.last_min_ < pos - w.size_)
    (hlo : INT64_MIN ≤ pos - w.size_) (hhi : pos - w.size_ ≤ INT64_MAX) :
    w.waitFor mem pos = .error .blocked ↔
      ∃ c ∈ w.barrier_.followers, toInt32 (mem c) < pos - w.size_ := by
  rw [← barrier_waitFor_blocked_iff w.barrier_ mem (pos - w.size_) hwf hcache]
  have h1 : sub64 pos w.size_ = .ok (pos - w.size_) := by
    unfold sub64
    rw [if_pos ⟨hlo, hhi⟩]
  unfold WriteCursor.waitFor
  rw [h1]
  simp only
  cases hb : w.barrier_.waitFor mem (pos - w.size_) with
  | error f => simp
  | ok r =>
      obtain ⟨m, b⟩ := r
      simp only [reduceCtorEq, iff_false]
      have hadd : ∀ a c : Int, add64 a c ≠ .error .blocked := by
        intro a c
        unfold add64
        split <;> simp
      cases hs : (if m = INT64_MAX then add64 pos w.size_ else add64 m w.size_) with
      | error f =>
          simp only [ne_eq, Except.error.injEq]
          intro hf
          subst hf
          split at hs
          · exact hadd _ _ hs
          · exact hadd _ _ hs
      | ok s =>
          simp only
          cases he : add64 s 1 with
          | error f =>
              simp only [ne_eq, Except.error.injEq]
              intro hf
              subst hf
              exact hadd _ _ he
          | ok e => simp

/-- C5. One follower, cache `-1`, target `0`. With the follower at
`4294967301` (above the target) `waitFor(0)` returns `5`, not the follower's
position; with the follower at `2147483648` (above the target) it blocks. -/
theorem barrier_waitFor_narrows :
    (SequenceBarrier.new.follows 1).followers = [1] ∧
    (SequenceBarrier.new.follows 1).last_min_ < 0 ∧
    ((SequenceBarrier.new.follows 1).waitFor (fun _ => 4294967301) 0).map Prod.fst = .ok 5 ∧
    (SequenceBarrier.new.follows 1).waitFor (fun _ => 2147483648) 0 = .error .blocked := by
  decide

/-- C3. Writer of capacity 4 with one follower, about to call
`waitFor(2147483652)` with cached minimum `2147483647`: the follower has
published `2147483648 = pos - S`, yet the call blocks. The same happens on a
fresh writer calling `waitFor(4)` with that follower. -/
theorem writer_waitFor_blocks_above_int32 :
    (({ begin_ := 2147483652, end_ := 2147483652,
        barrier_ := { (SequenceBarrier.new.follows 1) with last_min_ := 2147483647 },
        cursor_ := 2147483651, size_ := 4 } : WriteCursor).waitFor
        (fun _ => 2147483648) 2147483652 = .error .blocked) ∧
    (2147483647 : Int) < 2147483652 - 4 ∧
    (∀ c ∈ (SequenceBarrier.new.follows 1).followers,
        (2147483652 : Int) - 4 ≤ (fun _ => 2147483648 : Mem) c) ∧
    ((WriteCursor.new 4).follows 1).waitFor (fun _ => 2147483648) 4 = .error .blocked := by
  decide

/-! ## Joining reader -/

/-- What the code does: a reader seeded with `q` (from `-1` up to the int
range) that follows a cursor whose published position is `q` reads position
`q` in its first loop iteration. -/
theorem joining_reader_first_access (q : Int) (c : Nat) (mem : Mem)
    (hq : -1 ≤ q ∧ q < 2147483648) (hmem : mem c = q) :
    (((ReadCursor.new q).follows c).drive mem).map Prod.fst = .ok q := by
  have hslots : ((ReadCursor.new q).follows c).barrier_.limit_seq_ =
      some c :: List.replicate 7 none := rfl
  have hcache : ((ReadCursor.new q).follows c).barrier_.last_min_ = -1 := rfl
  have hbegin : ((ReadCursor.new q).follows c).begin_ = q := rfl
  have hend : ((ReadCursor.new q).follows c).end_ = q := rfl
  have hmax : INT64_MAX = 9223372036854775807 := rfl
  have hmin : INT64_MIN = -9223372036854775808 := rfl
  have h32 : toInt32 q = q := by
    unfold toInt32
    omega
  have hpub : ∀ r : ReadCursor, r.begin_ = q →
      ∃ r2, r.publish r.begin_ = .ok r2 := by
    intro r hr
    unfold ReadCursor.publish EventCursor.publish add64
    rw [if_pos (by rw [hr]; constructor <;> omega)]
    exact ⟨_, rfl⟩
  have hwait : ∃ e r1, ((ReadCursor.new q).follows c).waitFor mem q = .ok (e, r1) ∧
      r1.begin_ = q := by
    unfold ReadCursor.waitFor SequenceBarrier.waitFor
    by_cases hc : q ≤ -1
    · have hq1 : q = -1 := by omega
      subst hq1
      rw [if_pos (by rw [hcache])]
      simp only [hcache]
      unfold add64
      rw [if_pos (by constructor <;> omega)]
      exact ⟨_, _, rfl, rfl⟩
    · rw [if_neg (by rw [hcache]; omega), hslots]
      simp only [waitForScan, hmem, h32, ge_iff_le, le_refl, if_true, List.replicate_succ]
      rw [if_pos (by omega : q < INT64_MAX), if_neg (by omega : ¬ q = INT64_MAX)]
      simp only
      unfold add64
      rw [if_pos (by constructor <;> omega)]
      exact ⟨_, _, rfl, rfl⟩
  obtain ⟨e, r1, hw, hb1⟩ := hwait
  obtain ⟨r2, hp⟩ := hpub r1 hb1
  unfold ReadCursor.drive
  rw [if_pos (by rw [hbegin, hend]), hend, hw]
  simp only
  rw [hb1] at hp
  simp only [Except.map, hb1, hp]

/-- C4. A reader seeded with the writer's position `q` and following that
writer reads position `q` first: position 2 when the writer has published
`0..2`, and position `-1` (then `0, 1, 2, 3`) when it joined before any
publish. -/
theorem joining_reader_reads_seed :
    (((ReadCursor.new 2).follows 0).drive (fun _ => 2)).map Prod.fst = .ok 2 ∧
    (((ReadCursor.new (-1)).follows 0).drive Mem.fresh).map Prod.fst = .ok (-1) ∧
    ((ReadCursor.new (-1)).follows 0).driveTrace 5 (fun _ => 3) = .ok [-1, 0, 1, 2, 3] := by
  decide

/-! ## Writer without followers -/

/-- C9, as stated, fails: a fresh writer of capacity 4 without followers
answers `waitFor(0)` with `end = 4`, not `0 + 4 + 1`. -/
theorem writer_no_followers_counterexample :
    (WriteCursor.new 4).barrier_.followers = [] ∧
    ((WriteCursor.new 4).waitFor Mem.fresh 0).map (fun x => (x.1, x.2.end_)) = .ok (4, 4) ∧
    ((WriteCursor.new 4).waitFor Mem.fresh 0).map (fun x => (x.1, x.2.end_)) ≠
      .ok (0 + 4 + 1, 0 + 4 + 1) := by
  decide

/-- C9, amended. For a writer of capacity `S ≥ 0` without followers whose
cached minimum is below `pos - S` or is `INT64_MAX`, `waitFor(pos)` sets `end`
to `pos + S + 1` and returns it, when `pos - S` and `pos + S + 1` are
`int64_t` values. Nothing else of the writer changes. -/
theorem writer_waitFor_no_followers (w : WriteCursor) (mem : Mem) (pos : Int)
    (hf : w.barrier_.followers = [])
    (hc : w.barrier_.last_min_ < pos - w.size_ ∨ w.barrier_.last_min_ = INT64_MAX)
    (hS : 0 ≤ w.size_) (hlo : INT64_MIN ≤ pos - w.size_)
    (hhi : pos + w.size_ + 1 ≤ INT64_MAX) :
    w.waitFor mem pos = .ok (pos + w.size_ + 1, { w with end_ := pos + w.size_ + 1 }) := by
  have hscan := waitForScan_no_followers mem (pos - w.size_) w.barrier_.limit_seq_ INT64_MAX hf
  have hmin : INT64_MIN = -9223372036854775808 := rfl
  have hmax : INT64_MAX = 9223372036854775807 := rfl
  have h1 : sub64 pos w.size_ = .ok (pos - w.size_) := by
    unfold sub64
    rw [if_pos]
    constructor <;> omega
  have h2 : add64 pos w.size_ = .ok (pos + w.size_) := by
    unfold add64
    rw [if_pos]
    constructor <;> omega
  have h3 : add64 (pos + w.size_) 1 = .ok (pos + w.size_ + 1) := by
    unfold add64
    rw [if_pos]
    constructor <;> omega
  have hb : w.barrier_.waitFor mem (pos - w.size_) = .ok (INT64_MAX, w.barrier_) := by
    unfold SequenceBarrier.waitFor
    rcases hc with hc | hc
    · rw [if_neg (by omega), hscan]
      simp
    · rw [if_pos (by omega), hc]
  unfold WriteCursor.waitFor
  rw [h1]
  simp only [hb, if_true, h2, h3]

/-- Fresh writer of capacity 4 without followers, `waitFor(4)`: `end = 9`. -/
theorem writer_waitFor_no_followers_witness :
    (WriteCursor.new 4).barrier_.followers = [] ∧
    (WriteCursor.new 4).waitFor Mem.fresh 4 =
      .ok (4 + (WriteCursor.new 4).size_ + 1,
           { (WriteCursor.new 4) with end_ := 4 + (WriteCursor.new 4).size_ + 1 }) :=
  ⟨by decide,
   writer_waitFor_no_followers (WriteCursor.new 4) Mem.fresh 4 (by decide)
     (Or.inl (by decide)) (by decide) (by decide) (by decide)⟩

/-! ## Producer safety -/

/-- C1, as stated, fails: a writer of capacity 4 that has published `0..3`
alone is granted `[4, 9)` by `waitFor(4)`; once a freshly constructed reader
(published position `-1`) is registered, the window holds `p = 4` while that
follower is below `p - 4`. -/
theorem producer_safety_counterexample :
    ∃ w mem,
      WriteCursor.run anyOp
        [.publish, .publish, .publish, .publish, .waitFor 4, .follows 1]
        (WriteCursor.new 4, Mem.fresh) = .ok (w, mem) ∧
      1 ∈ w.barrier_.followers ∧ w.begin_ ≤ 4 ∧ 4 < w.end_ ∧ mem 1 < 4 - 4 := by
  refine ⟨_, _, rfl, ?_⟩
  decide

/-- C1, amended. When every `follows` registration precedes the first
`waitFor` or `checkEnd` call, a writer of capacity `S` never holds a window
`[begin, end)` that contains a position `p` while a registered follower has
published a position below `p - S`. -/
theorem producer_safety (S : Int) (ops : List Op) (w : WriteCursor) (mem : Mem)
    (hsetup : setupFirst ops = true)
    (hrun : WriteCursor.run anyOp ops (WriteCursor.new S, Mem.fresh) = .ok (w, mem))
    (p : Int) (hp : w.begin_ ≤ p ∧ p < w.end_) (c : Nat) (hc : c ∈ w.barrier_.followers) :
    p - S ≤ mem c := by
  have hg : WriteCursor.Gated S (w, mem) :=
    runOps_two_phase WriteCursor.step (fun s => s.1.toEventCursor)
      (WriteCursor.InSetup S) (WriteCursor.Gated S) (writer_setup_gated S)
      (writer_step_setup S) (writer_step_gated S) ops _ _ hsetup hrun (writer_new_setup S)
  have := (hg.2.2.2 c hc).2
  simp only at this
  omega

/-- Writer of capacity 4 following reader 1; after four publishes and the
reader's publish of position 0, `waitFor(4)` grants `[4, 5)`. -/
theorem producer_safety_witness :
    ∃ w mem,
      WriteCursor.run anyOp
        [.follows 1, .publish, .publish, .publish, .publish, .advance 1 0, .waitFor 4]
        (WriteCursor.new 4, Mem.fresh) = .ok (w, mem) ∧
      (w.begin_ ≤ 4 ∧ 4 < w.end_) ∧ 1 ∈ w.barrier_.followers ∧ (4 : Int) - 4 ≤ mem 1 :=
  ⟨_, _, rfl, by decide, by decide,
    producer_safety 4
      [.follows 1, .publish, .publish, .publish, .publish, .advance 1 0, .waitFor 4]
      _ _ (by decide) rfl 4 (by decide) 1 (by decide)⟩

/-! ## Consumer safety -/

/-- C2, as stated, fails: a reader following cursor 1 is granted `[0, 4)`
once cursor 1 has published `0..3`; when cursor 2 (published position `-1`)
is registered afterwards, the window holds `p = 0` while that follower is
below `p`. -/
theorem consumer_safety_counterexample :
    ∃ r mem,
      ReadCursor.run anyOp
        [.follows 1, .advance 1 0, .advance 1 1, .advance 1 2, .advance 1 3, .waitFor 0,
         .follows 2]
        (ReadCursor.new 0, Mem.fresh) = .ok (r, mem) ∧
      2 ∈ r.barrier_.followers ∧ r.begin_ ≤ 0 ∧ 0 < r.end_ ∧ mem 2 < 0 := by
  refine ⟨_, _, rfl, ?_⟩
  decide

/-- C2, amended. When every `follows` registration precedes the first
`waitFor` or `checkEnd` call, a reader (of any seed `q`) never holds a window
`[begin, end)` that contains a position `p` while a registered follower has
published a position below `p`. -/
theorem consumer_safety (q : Int) (ops : List Op) (r : ReadCursor) (mem : Mem)
    (hsetup : setupFirst ops = true)
    (hrun : ReadCursor.run anyOp ops (ReadCursor.new q, Mem.fresh) = .ok (r, mem))
    (p : Int) (hp : r.begin_ ≤ p ∧ p < r.end_) (c : Nat) (hc : c ∈ r.barrier_.followers) :
    p ≤ mem c := by
  have hg : ReadCursor.Gated (r, mem) :=
    runOps_two_phase ReadCursor.step (fun s => s.1.toEventCursor)
      ReadCursor.InSetup ReadCursor.Gated reader_setup_gated
      reader_step_setup reader_step_gated ops _ _ hsetup hrun (reader_new_setup q)
  have := (hg.2.2 c hc).2
  simp only at this
  omega

/-- Reader following cursors 1 and 2, which publish up to 3 and up to 1:
`waitFor(0)` grants `[0, 2)`. -/
theorem consumer_safety_witness :
    ∃ r mem,
      ReadCursor.run anyOp
        [.follows 1, .follows 2, .advance 1 3, .advance 2 1, .waitFor 0]
        (ReadCursor.new 0, Mem.fresh) = .ok (r, mem) ∧
      (r.begin_ ≤ 1 ∧ 1 < r.end_) ∧ 2 ∈ r.barrier_.followers ∧ (1 : Int) ≤ mem 2 :=
  ⟨_, _, rfl, by decide, by decide,
    consumer_safety 0 [.follows 1, .follows 2, .advance 1 3, .advance 2 1, .waitFor 0]
      _ _ (by decide) rfl 1 (by decide) 2 (by decide)⟩

/-! ## Window invariant -/

theorem writer_step_ordered (s : WriteCursor × Mem) (o : Op) (s1 : WriteCursor × Mem)
    (hg : driverOps s.1.toEventCursor o = true) (hstep : WriteCursor.step s o = .ok s1)
    (h : 0 ≤ s.1.size_ ∧ s.1.begin_ ≤ s.1.end_) :
    0 ≤ s1.1.size_ ∧ s1.1.begin_ ≤ s1.1.end_ := by
  cases o with
  | follows e =>
      simp only [WriteCursor.step] at hstep
      cases hstep
      exact h
  | waitFor pos =>
      simp only [driverOps, decide_eq_true_eq] at hg
      simp only [WriteCursor.step] at hstep
      split at hstep
      · split at hstep
        · rename_i e w1 hw1
          cases hstep
          obtain ⟨m, b, _, ht, hb, he, hw⟩ := writer_waitFor_ok hw1
          subst hw
          have hm := barrier_waitFor_ge hb ht
          simp only
          refine ⟨h.1, ?_⟩
          rw [he]
          split <;> omega
        · cases hstep
      · cases hstep
  | checkEnd => simp [driverOps] at hg
  | publish =>
      simp only [driverOps, decide_eq_true_eq] at hg
      simp only [WriteCursor.step] at hstep
      split at hstep
      · rename_i w1 hw1
        cases hstep
        obtain ⟨p1, p2, _, p4, _⟩ := writer_publish_ok hw1
        simp only
        rw [p1, p2, p4]
        omega
      · cases hstep
  | advance c v =>
      simp only [WriteCursor.step] at hstep
      split at hstep
      · cases hstep
        exact h
      · cases hstep

theorem reader_step_ordered (s : ReadCursor × Mem) (o : Op) (s1 : ReadCursor × Mem)
    (hg : driverOps s.1.toEventCursor o = true) (hstep : ReadCursor.step s o = .ok s1)
    (h : s.1.begin_ ≤ s.1.end_) : s1.1.begin_ ≤ s1.1.end_ := by
  cases o with
  | follows e =>
      simp only [ReadCursor.step] at hstep
      cases hstep
      exact h
  | waitFor pos =>
      simp only [driverOps, decide_eq_true_eq] at hg
      simp only [ReadCursor.step] at hstep
      split at hstep
      · rename_i hpos
        split at hstep
        · rename_i e r1 hr1
          cases hstep
          obtain ⟨m, b, hb, he, hr⟩ := reader_waitFor_ok hr1
          subst hr
          have hm := barrier_waitFor_ge hb hpos.2
          simp only
          omega
        · cases hstep
      · cases hstep
  | checkEnd => simp [driverOps] at hg
  | publish =>
      simp only [driverOps, decide_eq_true_eq] at hg
      simp only [ReadCursor.step] at hstep
      split at hstep
      · rename_i r1 hr1
        cases hstep
        obtain ⟨p1, p2, _, _⟩ := reader_publish_ok hr1
        simp only
        rw [p1, p2]
        omega
      · cases hstep
  | advance c v =>
      simp only [ReadCursor.step] at hstep
      split at hstep
      · cases hstep
        exact h
      · cases hstep

/-- C7, as stated, fails. A writer of capacity 4 following a fresh reader
publishes `0..3` and calls `checkEnd()`: `begin = 4`, `end = 3`. A reader
seeded with 2 calls `waitFor(-1)`: `begin = 2`, `end = 0`. A reader seeded
with 2 that follows a fresh writer calls `checkEnd()`: `begin = 2`,
`end = 0`. -/
theorem window_invariant_counterexample :
    (∃ w mem,
      WriteCursor.run publishInWindow
        [.follows 1, .publish, .publish, .publish, .publish, .checkEnd]
        (WriteCursor.new 4, Mem.fresh) = .ok (w, mem) ∧ w.begin_ = 4 ∧ w.end_ = 3 ∧
        ¬ w.begin_ ≤ w.end_) ∧
    (∃ r mem,
      ReadCursor.run publishInWindow [.waitFor (-1)] (ReadCursor.new 2, Mem.fresh) =
        .ok (r, mem) ∧ r.begin_ = 2 ∧ r.end_ = 0 ∧ ¬ r.begin_ ≤ r.end_) ∧
    (∃ r mem,
      ReadCursor.run publishInWindow [.follows 1, .checkEnd] (ReadCursor.new 2, Mem.fresh) =
        .ok (r, mem) ∧ r.begin_ = 2 ∧ r.end_ = 0 ∧ ¬ r.begin_ ≤ r.end_) := by
  refine ⟨⟨_, _, rfl, ?_⟩, ⟨_, _, rfl, ?_⟩, ⟨_, _, rfl, ?_⟩⟩ <;> decide

/-- C7, amended. For a writer of capacity `S ≥ 0` and for a reader of any
seed, after any sequence of `follows`, `waitFor(end())` and `publish(begin())`
made while `begin() < end()` (and of publishes by other cursors),
`begin() ≤ end()` holds. -/
theorem window_invariant (S q : Int) (hS : 0 ≤ S) (ops : List Op) :
    (∀ w mem, WriteCursor.run driverOps ops (WriteCursor.new S, Mem.fresh) = .ok (w, mem) →
      w.begin_ ≤ w.end_) ∧
    (∀ r mem, ReadCursor.run driverOps ops (ReadCursor.new q, Mem.fresh) = .ok (r, mem) →
      r.begin_ ≤ r.end_) := by
  constructor
  · intro w mem hrun
    exact (runOps_invariant WriteCursor.step (fun s => s.1.toEventCursor) driverOps
      (fun s => 0 ≤ s.1.size_ ∧ s.1.begin_ ≤ s.1.end_) writer_step_ordered ops _ _ hrun
      ⟨hS, hS⟩).2
  · intro r mem hrun
    exact runOps_invariant ReadCursor.step (fun s => s.1.toEventCursor) driverOps
      (fun s => s.1.begin_ ≤ s.1.end_) reader_step_ordered ops _ _ hrun (le_refl q)

/-- Writer of capacity 4 following reader 1 through a full lap and one wait. -/
theorem window_invariant_witness :
    (0 : Int) ≤ 4 ∧
    ∃ w mem,
      WriteCursor.run driverOps
        [.follows 1, .publish, .publish, .publish, .publish, .advance 1 0, .waitFor 4, .publish]
        (WriteCursor.new 4, Mem.fresh) = .ok (w, mem) ∧ w.begin_ ≤ w.end_ :=
  ⟨by decide, _, _, rfl,
    (window_invariant 4 0 (by decide)
      [.follows 1, .publish, .publish, .publish, .publish, .advance 1 0, .waitFor 4,
       .publish]).1 _ _ rfl⟩

/-! ## Capacity check -/

theorem testBit_of_two_pow_le_lt {x k : Nat} (h1 : 2 ^ k ≤ x) (h2 : x < 2 ^ (k + 1)) :
    x.testBit k = true := by
  rw [Nat.testBit_to_div_mod]
  have hdiv : x / 2 ^ k = 1 := by
    apply Nat.div_eq_of_lt_le
    · simpa using h1
    · rw [pow_succ] at h2
      omega
  simp [hdiv]

theorem sizeCheck_two_pow (k : Nat) (hk : k ≤ 63) : RingBuffer.sizeCheck (2 ^ k) = true := by
  interval_cases k <;> rfl

theorem two_pow_of_sizeCheck (N : Nat) (hN : N < 18446744073709551616)
    (h : RingBuffer.sizeCheck N = true) : ∃ k, k ≤ 63 ∧ N = 2 ^ k := by
  unfold RingBuffer.sizeCheck not64 at h
  simp only [Bool.and_eq_true, bne_iff_ne, ne_eq, beq_iff_eq] at h
  obtain ⟨h0, hand⟩ := h
  have hy : (18446744073709551615 - N + 1) % 18446744073709551616 =
      2 ^ 64 - ((N - 1) + 1) := by
    norm_num
    omega
  rw [hy] at hand
  have hlo : 2 ^ Nat.log 2 N ≤ N := Nat.pow_log_le_self 2 h0
  have hhi : N < 2 ^ (Nat.log 2 N + 1) := Nat.lt_pow_succ_log_self (by decide) N
  have hk : Nat.log 2 N ≤ 63 := by
    by_contra hc
    have h64 : 64 ≤ Nat.log 2 N := by omega
    have : 2 ^ 64 ≤ 2 ^ Nat.log 2 N := Nat.pow_le_pow_right (by decide) h64
    have h264 : (2 : Nat) ^ 64 = 18446744073709551616 := by norm_num
    omega
  refine ⟨Nat.log 2 N, hk, ?_⟩
  by_contra hne
  have h1 : 2 ^ Nat.log 2 N ≤ N - 1 := by omega
  have h2 : N - 1 < 2 ^ (Nat.log 2 N + 1) := by omega
  have hbN := testBit_of_two_pow_le_lt hlo hhi
  have hbN1 := testBit_of_two_pow_le_lt h1 h2
  have hlt : N - 1 < 2 ^ 64 := by
    have h264 : (2 : Nat) ^ 64 = 18446744073709551616 := by norm_num
    omega
  have hby := Nat.testBit_two_pow_sub_succ hlt (Nat.log 2 N)
  have hband := Nat.testBit_and N (2 ^ 64 - ((N - 1) + 1)) (Nat.log 2 N)
  rw [hand, hbN, hby, hbN1] at hband
  simp at hband

/-- C13. On a 64-bit unsigned `N`, the check `(N != 0) && ((N & (~N + 1)) == N)`
of `RingBuffer<T, N>` holds exactly when `N = 2 ^ k` for some `k ≤ 63`; every
other capacity, 0 included, is rejected. -/
theorem size_check_iff_power_of_two (N : Nat) (hN : N < 18446744073709551616) :
    RingBuffer.sizeCheck N = true ↔ ∃ k, k ≤ 63 ∧ N = 2 ^ k := by
  constructor
  · exact two_pow_of_sizeCheck N hN
  · rintro ⟨k, hk, rfl⟩
    exact sizeCheck_two_pow k hk

/-- Capacities 4 (accepted), 0 and 6 (rejected). -/
theorem size_check_iff_power_of_two_witness :
    ((4 : Nat) < 18446744073709551616) ∧
    (RingBuffer.sizeCheck 4 = true ↔ ∃ k, k ≤ 63 ∧ 4 = 2 ^ k) ∧
    (RingBuffer.sizeCheck 0 = true ↔ ∃ k, k ≤ 63 ∧ 0 = 2 ^ k) ∧
    (RingBuffer.sizeCheck 6 = true ↔ ∃ k, k ≤ 63 ∧ 6 = 2 ^ k) ∧
    RingBuffer.sizeCheck 4 = true ∧ RingBuffer.sizeCheck 0 = false ∧
    RingBuffer.sizeCheck 6 = false :=
  ⟨by decide, size_check_iff_power_of_two 4 (by decide),
    size_check_iff_power_of_two 0 (by decide), size_check_iff_power_of_two 6 (by decide),
    by decide, by decide, by decide⟩

/-! ## Published position -/

theorem runOps_monotone {σ : Type} (step : σ → Op → Except Fault σ) (view : σ → EventCursor)
    (guard : EventCursor → Op → Bool) (P : σ → Prop) (f : σ → Int)
    (hstep : ∀ s o s1, step s o = .ok s1 → P s → P s1 ∧ f s ≤ f s1) :
    ∀ (ops : List Op) (s s1 : σ), runOps step view guard ops s = .ok s1 → P s →
      P s1 ∧ f s ≤ f s1 := by
  intro ops
  induction ops with
  | nil =>
      intro s s1 h hP
      simp only [runOps] at h
      cases h
      exact ⟨hP, le_refl _⟩
  | cons o os ih =>
      intro s s1 h hP
      simp only [runOps] at h
      split at h
      · split at h
        · rename_i s2 hs2
          obtain ⟨hP2, hle⟩ := hstep s o s2 hs2 hP
          obtain ⟨hP1, hle1⟩ := ih s2 s1 h hP2
          exact ⟨hP1, le_trans hle hle1⟩
        · cases h
      · cases h

theorem writer_step_published (s : WriteCursor × Mem) (o : Op) (s1 : WriteCursor × Mem)
    (hstep : WriteCursor.step s o = .ok s1) (h : s.1.cursor_ ≤ s.1.begin_) :
    s1.1.cursor_ ≤ s1.1.begin_ ∧ s.1.cursor_ ≤ s1.1.cursor_ := by
  cases o with
  | follows e =>
      simp only [WriteCursor.step] at hstep
      cases hstep
      exact ⟨h, le_refl _⟩
  | waitFor pos =>
      simp only [WriteCursor.step] at hstep
      split at hstep
      · split at hstep
        · rename_i e w1 hw1
          cases hstep
          obtain ⟨m, b, _, _, _, _, hw⟩ := writer_waitFor_ok hw1
          subst hw
          exact ⟨h, le_refl _⟩
        · cases hstep
      · cases hstep
  | checkEnd =>
      simp only [WriteCursor.step] at hstep
      split at hstep
      · rename_i e w1 hw1
        cases hstep
        obtain ⟨_, hw⟩ := writer_checkEnd_ok hw1
        subst hw
        exact ⟨h, le_refl _⟩
      · cases hstep
  | publish =>
      simp only [WriteCursor.step] at hstep
      split at hstep
      · rename_i w1 hw1
        cases hstep
        obtain ⟨p1, _, _, _, p5⟩ := writer_publish_ok hw1
        simp only
        rw [p1, p5]
        constructor <;> omega
      · cases hstep
  | advance c v =>
      simp only [WriteCursor.step] at hstep
      split at hstep
      · cases hstep
        exact ⟨h, le_refl _⟩
      · cases hstep

theorem reader_step_published (s : ReadCursor × Mem) (o : Op) (s1 : ReadCursor × Mem)
    (hstep : ReadCursor.step s o = .ok s1) (h : s.1.cursor_ ≤ s.1.begin_) :
    s1.1.cursor_ ≤ s1.1.begin_ ∧ s.1.cursor_ ≤ s1.1.cursor_ := by
  cases o with
  | follows e =>
      simp only [ReadCursor.step] at hstep
      cases hstep
      exact ⟨h, le_refl _⟩
  | waitFor pos =>
      simp only [ReadCursor.step] at hstep
      split at hstep
      · split at hstep
        · rename_i e r1 hr1
          cases hstep
          obtain ⟨m, b, _, _, hr⟩ := reader_waitFor_ok hr1
          subst hr
          exact ⟨h, le_refl _⟩
        · cases hstep
      · cases hstep
  | checkEnd =>
      simp only [ReadCursor.step] at hstep
      split at hstep
      · rename_i e r1 hr1
        cases hstep
        obtain ⟨_, hr⟩ := reader_checkEnd_ok hr1
        subst hr
        exact ⟨h, le_refl _⟩
      · cases hstep
  | publish =>
      simp only [ReadCursor.step] at hstep
      split at hstep
      · rename_i r1 hr1
        cases hstep
        obtain ⟨p1, _, _, p4⟩ := reader_publish_ok hr1
        simp only
        rw [p1, p4]
        constructor <;> omega
      · cases hstep
  | advance c v =>
      simp only [ReadCursor.step] at hstep
      split at hstep
      · cases hstep
        exact ⟨h, le_refl _⟩
      · cases hstep

/-- C11. For a writer of any capacity and a reader of any seed `q ≥ -1`,
driven by any sequence of `follows`, `waitFor`, `checkEnd` and
`publish(begin())` calls: the published position read at any moment is at most
the one read at any later moment. -/
theorem published_position_monotonic (S q : Int) (hq : -1 ≤ q) (ops1 ops2 : List Op) :
    (∀ w1 m1 w2 m2,
      WriteCursor.run anyOp ops1 (WriteCursor.new S, Mem.fresh) = .ok (w1, m1) →
      WriteCursor.run anyOp ops2 (w1, m1) = .ok (w2, m2) → w1.cursor_ ≤ w2.cursor_) ∧
    (∀ r1 m1 r2 m2,
      ReadCursor.run anyOp ops1 (ReadCursor.new q, Mem.fresh) = .ok (r1, m1) →
      ReadCursor.run anyOp ops2 (r1, m1) = .ok (r2, m2) → r1.cursor_ ≤ r2.cursor_) := by
  constructor
  · intro w1 m1 w2 m2 h1 h2
    have hP := (runOps_monotone WriteCursor.step (fun s => s.1.toEventCursor) anyOp
      (fun s => s.1.cursor_ ≤ s.1.begin_) (fun s => s.1.cursor_) writer_step_published
      ops1 _ _ h1 (show (-1 : Int) ≤ 0 by decide)).1
    exact (runOps_monotone WriteCursor.step (fun s => s.1.toEventCursor) anyOp
      (fun s => s.1.cursor_ ≤ s.1.begin_) (fun s => s.1.cursor_) writer_step_published
      ops2 _ _ h2 hP).2
  · intro r1 m1 r2 m2 h1 h2
    have hP := (runOps_monotone ReadCursor.step (fun s => s.1.toEventCursor) anyOp
      (fun s => s.1.cursor_ ≤ s.1.begin_) (fun s => s.1.cursor_) reader_step_published
      ops1 _ _ h1 hq).1
    exact (runOps_monotone ReadCursor.step (fun s => s.1.toEventCursor) anyOp
      (fun s => s.1.cursor_ ≤ s.1.begin_) (fun s => s.1.cursor_) reader_step_published
      ops2 _ _ h2 hP).2

/-- Reader seeded with 2 that follows cursor 1: published `-1` after the
wait, `3` after two publishes. -/
theorem published_position_monotonic_witness :
    ((-1 : Int) ≤ 2) ∧
    ∃ r1 m1 r2 m2,
      ReadCursor.run anyOp [.follows 1, .advance 1 5, .waitFor 2]
        (ReadCursor.new 2, Mem.fresh) = .ok (r1, m1) ∧
      ReadCursor.run anyOp [.publish, .checkEnd, .publish] (r1, m1) = .ok (r2, m2) ∧
      r1.cursor_ = -1 ∧ r2.cursor_ = 3 ∧ r1.cursor_ ≤ r2.cursor_ :=
  ⟨by decide, _, _, _, _, rfl, rfl, by decide, by decide,
    (published_position_monotonic 4 2 (by decide) [.follows 1, .advance 1 5, .waitFor 2]
      [.publish, .checkEnd, .publish]).2 _ _ _ _ rfl rfl⟩

/-! ## Publish -/

/-- C12. For every cursor and every position `p` whose successor is an
`int64_t`, `publish(p)` returns with `begin() == p + 1` and
`pos().acquire() == p`, and leaves `end()` and the barrier (registered
followers and cached minimum) unchanged; on a writer the capacity too. -/
theorem publish_contract (p : Int) (hlo : INT64_MIN ≤ p) (hhi : p < INT64_MAX) :
    (∀ c : EventCursor, ∃ c1, c.publish p = .ok c1 ∧ c1.begin_ = p + 1 ∧ c1.cursor_ = p ∧
      c1.end_ = c.end_ ∧ c1.barrier_ = c.barrier_) ∧
    (∀ r : ReadCursor, ∃ r1, r.publish p = .ok r1 ∧ r1.begin_ = p + 1 ∧ r1.cursor_ = p ∧
      r1.end_ = r.end_ ∧ r1.barrier_ = r.barrier_) ∧
    (∀ w : WriteCursor, ∃ w1, w.publish p = .ok w1 ∧ w1.begin_ = p + 1 ∧ w1.cursor_ = p ∧
      w1.end_ = w.end_ ∧ w1.barrier_ = w.barrier_ ∧ w1.size_ = w.size_) := by
  have hmin : INT64_MIN = -9223372036854775808 := rfl
  have hmax : INT64_MAX = 9223372036854775807 := rfl
  have hadd : add64 p 1 = .ok (p + 1) := by
    unfold add64
    rw [if_pos]
    constructor <;> omega
  refine ⟨?_, ?_, ?_⟩
  · intro c
    refine ⟨{ c with begin_ := p + 1, cursor_ := p }, ?_, rfl, rfl, rfl, rfl⟩
    simp only [EventCursor.publish, hadd]
  · intro r
    refine ⟨{ r with begin_ := p + 1, cursor_ := p }, ?_, rfl, rfl, rfl, rfl⟩
    simp only [ReadCursor.publish, EventCursor.publish, hadd]
  · intro w
    refine ⟨{ w with begin_ := p + 1, cursor_ := p }, ?_, rfl, rfl, rfl, rfl, rfl⟩
    simp only [WriteCursor.publish, EventCursor.publish, hadd]

/-- Fresh writer of capacity 4 following cursor 1, `publish(0)`. -/
theorem publish_contract_witness :
    (INT64_MIN ≤ 0 ∧ (0 : Int) < INT64_MAX) ∧
    ∃ w1, ((WriteCursor.new 4).follows 1).publish 0 = .ok w1 ∧ w1.begin_ = 0 + 1 ∧
      w1.cursor_ = 0 ∧ w1.end_ = ((WriteCursor.new 4).follows 1).end_ ∧
      w1.barrier_ = ((WriteCursor.new 4).follows 1).barrier_ ∧
      w1.size_ = ((WriteCursor.new 4).follows 1).size_ :=
  ⟨by decide, (publish_contract 0 (by decide) (by decide)).2.2 ((WriteCursor.new 4).follows 1)⟩

/-! ## Idempotence of checkEnd -/

/-- C14. For a reader and for a writer: when `checkEnd()` has returned `e`
and is called again on the same memory (no follower has published, nothing
was registered), it returns `e` again and leaves the cursor as the first call
left it. -/
theorem checkEnd_idempotent :
    (∀ (r r1 : ReadCursor) (mem : Mem) (e : Int),
      r.checkEnd mem = .ok (e, r1) → r1.checkEnd mem = .ok (e, r1)) ∧
    (∀ (w w1 : WriteCursor) (mem : Mem) (e : Int),
      w.checkEnd mem = .ok (e, w1) → w1.checkEnd mem = .ok (e, w1)) := by
  constructor
  · intro r r1 mem e h
    unfold ReadCursor.checkEnd at h
    split at h
    · cases h
    · rename_i e1 he
      cases h
      have hmin : ∀ b : SequenceBarrier, (b.getMin mem).2.getMin mem = b.getMin mem :=
        fun _ => rfl
      simp only [ReadCursor.checkEnd, hmin, he]
  · intro w w1 mem e h
    unfold WriteCursor.checkEnd at h
    split at h
    · cases h
    · rename_i e1 he
      cases h
      have hmin : ∀ b : SequenceBarrier, (b.getMin mem).2.getMin mem = b.getMin mem :=
        fun _ => rfl
      simp only [WriteCursor.checkEnd, hmin, he]

/-- Reader following cursor 1 at position 3: `checkEnd()` returns 4 twice. -/
theorem checkEnd_idempotent_witness :
    ∃ r1, ((ReadCursor.new 0).follows 1).checkEnd (fun _ => 3) = .ok (4, r1) ∧
      r1.checkEnd (fun _ => 3) = .ok (4, r1) :=
  ⟨_, rfl, checkEnd_idempotent.1 ((ReadCursor.new 0).follows 1) _ (fun _ => 3) 4 rfl⟩

/-! ## Monotonic cache -/

theorem foldl_follows_last_min (fs : List Nat) (b : SequenceBarrier) :
    (fs.foldl SequenceBarrier.follows b).last_min_ = b.last_min_ := by
  induction fs generalizing b with
  | nil => rfl
  | cons c cs ih =>
      rw [List.foldl_cons, ih]
      rfl

theorem barrier_step_facts (s : SequenceBarrier × Mem) (o : BarrierOp) (ret : Option Int)
    (s1 : SequenceBarrier × Mem) (hstep : SequenceBarrier.step s o = .ok (ret, s1))
    (h : SequenceBarrier.CacheBelow s) (hmax : s.1.last_min_ ≤ INT64_MAX) :
    (SequenceBarrier.CacheBelow s1 ∧ s1.1.last_min_ ≤ INT64_MAX) ∧
    s1.1.limit_seq_ = s.1.limit_seq_ ∧ s.1.last_min_ ≤ s1.1.last_min_ ∧
    ∀ m, ret = some m → s.1.last_min_ ≤ m ∧ (s.1.followers ≠ [] → m = s1.1.last_min_) := by
  obtain ⟨hwf, hb, hc⟩ := h
  have hMAX : INT64_MAX = 9223372036854775807 := rfl
  cases o with
  | getMin =>
      simp only [SequenceBarrier.step] at hstep
      cases hstep
      have hslots : (s.1.getMin s.2).2.limit_seq_ = s.1.limit_seq_ := rfl
      have hlast : (s.1.getMin s.2).2.last_min_ = (s.1.getMin s.2).1 := rfl
      have hle := barrier_getMin_le s.2 hwf
      have hge : s.1.last_min_ ≤ (s.1.getMin s.2).1 ∧ (s.1.getMin s.2).1 ≤ INT64_MAX := by
        obtain ⟨fs, n, hl⟩ := hwf
        have hf := followers_of_slots hl
        obtain ⟨g1, _, g3⟩ := getMinScan_spec s.2 fs n INT64_MAX
        simp only [SequenceBarrier.getMin, hl]
        refine ⟨?_, g1⟩
        rcases g3 with g3 | ⟨c, hcf, g3⟩
        · rw [g3]
          exact hmax
        · rw [g3]
          exact hc c (by rw [hf]; exact hcf)
      simp only
      refine ⟨⟨⟨WF_of_slots_eq hslots hwf, hb, ?_⟩, ?_⟩, hslots, ?_, ?_⟩
      · intro c hcf
        rw [followers_of_slots_eq hslots] at hcf
        rw [hlast]
        exact hle c hcf
      · rw [hlast]
        exact hge.2
      · rw [hlast]
        exact hge.1
      · intro m hm
        cases hm
        exact ⟨hge.1, fun _ => hlast.symm⟩
  | waitFor pos =>
      simp only [SequenceBarrier.step] at hstep
      split at hstep
      · rename_i hpos
        split at hstep
        · rename_i m b hw
          cases hstep
          have hslots := (barrier_waitFor_ok hw).1
          have hle := barrier_waitFor_le hwf hb hc hw
          have hge := barrier_waitFor_ge hw hpos.2
          simp only
          rcases (barrier_waitFor_ok hw).2 with ⟨_, h2, h3⟩ | ⟨hlt, hscan, h3⟩
          · subst h3
            refine ⟨⟨⟨hwf, hb, hc⟩, hmax⟩, rfl, le_refl _, ?_⟩
            intro m1 hm1
            cases hm1
            exact ⟨by omega, fun _ => h2⟩
          · have hscanmax : m ≤ INT64_MAX := by
              obtain ⟨fs, n, hl⟩ := hwf
              rw [hl] at hscan
              exact (waitForScan_spec s.2 pos fs n INT64_MAX m hscan).1
            have hcache1 : s.1.last_min_ ≤ b.last_min_ ∧ b.last_min_ ≤ INT64_MAX := by
              rcases h3 with h3 | ⟨_, h3⟩
              · rw [h3]
                exact ⟨by omega, hscanmax⟩
              · subst h3
                exact ⟨le_refl _, hmax⟩
            refine ⟨⟨⟨WF_of_slots_eq hslots hwf, hb, ?_⟩, hcache1.2⟩, hslots, hcache1.1, ?_⟩
            · intro c hcf
              rw [followers_of_slots_eq hslots] at hcf
              exact (hle c hcf).2
            · intro m1 hm1
              cases hm1
              refine ⟨by omega, ?_⟩
              intro hne
              obtain ⟨⟨c, _, hcm⟩, _⟩ := barrier_waitFor_polled s.1 b s.2 pos m hwf hne hlt hw
              have h32 := toInt32_lt (s.2 c)
              rcases h3 with h3 | ⟨h3, _⟩
              · exact h3.symm
              · omega
        · cases hstep
      · cases hstep
  | advance c v =>
      simp only [SequenceBarrier.step] at hstep
      split at hstep
      · rename_i mem1 hm
        cases hstep
        refine ⟨⟨⟨hwf, advanceMem_bounded hm hb, ?_⟩, hmax⟩, rfl, le_refl _, ?_⟩
        · intro d hd
          have h1 := hc d hd
          have h2 := ((advanceMem_ok hm).2 d).1
          show s.1.last_min_ ≤ mem1 d
          omega
        · intro m hm1
          cases hm1
      · cases hstep

theorem barrier_trace_facts (ops : List BarrierOp) :
    ∀ (s : SequenceBarrier × Mem) (tr : List (Int × Int)),
      SequenceBarrier.trace ops s = .ok tr →
      SequenceBarrier.CacheBelow s → s.1.last_min_ ≤ INT64_MAX →
      (∀ x ∈ tr, s.1.last_min_ ≤ x.2 ∧ s.1.last_min_ ≤ x.1) ∧
      (tr.map Prod.snd).Pairwise (· ≤ ·) ∧
      (s.1.followers ≠ [] → (tr.map Prod.fst).Pairwise (· ≤ ·)) := by
  induction ops with
  | nil =>
      intro s tr h _ _
      simp only [SequenceBarrier.trace] at h
      cases h
      simp
  | cons o os ih =>
      intro s tr h hc hmax
      simp only [SequenceBarrier.trace] at h
      split at h
      · cases h
      · rename_i ret s1 hstep
        split at h
        · cases h
        · rename_i tr1 htr1
          cases h
          obtain ⟨⟨hc1, hmax1⟩, hslots, hmono, hret⟩ := barrier_step_facts s o ret s1 hstep hc hmax
          obtain ⟨g1, g2, g3⟩ := ih s1 tr1 htr1 hc1 hmax1
          have hfol : s1.1.followers = s.1.followers := followers_of_slots_eq hslots
          cases ret with
          | none =>
              simp only
              refine ⟨?_, g2, ?_⟩
              · intro x hx
                have := g1 x hx
                omega
              · intro hne
                exact g3 (by rw [hfol]; exact hne)
          | some m =>
              obtain ⟨hm1, hm2⟩ := hret m rfl
              simp only [List.mem_cons, List.map_cons, List.pairwise_cons, List.mem_map]
              refine ⟨?_, ⟨?_, g2⟩, ?_⟩
              · intro x hx
                rcases hx with hx | hx
                · subst hx
                  exact ⟨hmono, hm1⟩
                · have := g1 x hx
                  omega
              · rintro y ⟨x, hx, rfl⟩
                exact (g1 x hx).1
              · intro hne
                refine ⟨?_, g3 (by rw [hfol]; exact hne)⟩
                rintro y ⟨x, hx, rfl⟩
                have := (g1 x hx).2
                have := hm2 hne
                omega

/-- C16, as stated, fails for the empty follower set: on a fresh barrier
`waitFor(0)` returns the sentinel `INT64_MAX` without caching it, and
`waitFor(-1)` then returns the cached `-1`. -/
theorem cache_monotonic_counterexample :
    SequenceBarrier.new.followers = [] ∧
    SequenceBarrier.trace [.waitFor 0, .waitFor (-1)] (SequenceBarrier.new, Mem.fresh) =
      .ok [(INT64_MAX, -1), (-1, -1)] ∧
    ¬ ([(INT64_MAX, -1), (-1, -1)].map Prod.fst).Pairwise (· ≤ ·) := by
  decide

/-- C16, amended. For a barrier on which the cursors `fs` (at most 8) were
registered, with published positions that are at least `-1` and never
decrease, along any sequence of `getMin` and `waitFor` calls: the cached
minimum never decreases (and is never below its initial `-1`); when `fs` is
not empty the returned values are non-decreasing; and a `waitFor(t)` whose
target the cache already satisfies returns the cached value, whatever the
followers hold, and leaves the barrier unchanged. -/
theorem cache_monotonic (fs : List Nat) (mem0 : Mem) (hk : fs.length ≤ MAX_FOLLOWERS)
    (hm : mem0.Bounded) (ops : List BarrierOp) (tr : List (Int × Int))
    (h : SequenceBarrier.trace ops
      (fs.foldl SequenceBarrier.follows SequenceBarrier.new, mem0) = .ok tr) :
    (∀ x ∈ tr, -1 ≤ x.2) ∧ (tr.map Prod.snd).Pairwise (· ≤ ·) ∧
    (fs ≠ [] → (tr.map Prod.fst).Pairwise (· ≤ ·)) ∧
    (∀ (b : SequenceBarrier) (mem : Mem) (t : Int), t ≤ b.last_min_ →
      b.waitFor mem t = .ok (b.last_min_, b)) := by
  have hslots := foldl_follows_slots fs hk
  have hlast : (fs.foldl SequenceBarrier.follows SequenceBarrier.new).last_min_ = -1 :=
    foldl_follows_last_min fs SequenceBarrier.new
  have hfol := followers_of_slots hslots
  have hc : SequenceBarrier.CacheBelow
      (fs.foldl SequenceBarrier.follows SequenceBarrier.new, mem0) := by
    refine ⟨⟨fs, _, hslots⟩, hm, ?_⟩
    intro c _
    simp only [hlast]
    exact (hm c).1
  obtain ⟨g1, g2, g3⟩ := barrier_trace_facts ops _ tr h hc (by rw [hlast]; decide)
  refine ⟨?_, g2, ?_, ?_⟩
  · intro x hx
    have := (g1 x hx).1
    simp only [hlast] at this
    exact this
  · intro hne
    exact g3 (by simp only [hfol]; exact hne)
  · intro b mem t ht
    unfold SequenceBarrier.waitFor
    rw [if_pos (by omega)]

/-- Two followers that advance between a `waitFor`, a `getMin` and a cached
`waitFor`. -/
theorem cache_monotonic_witness :
    ([1, 2].length ≤ MAX_FOLLOWERS) ∧
    SequenceBarrier.trace
        [.advance 1 3, .advance 2 1, .waitFor 0, .advance 2 2, .getMin, .waitFor 1]
        ([1, 2].foldl SequenceBarrier.follows SequenceBarrier.new, Mem.fresh) =
      .ok [(1, 1), (2, 2), (2, 2)] ∧
    ([(1, 1), (2, 2), (2, 2)].map Prod.fst : List Int).Pairwise (· ≤ ·) :=
  ⟨by decide, by decide,
    (cache_monotonic [1, 2] Mem.fresh (by decide)
      (by intro c; simp only [Mem.fresh, INT64_MAX]; omega)
      [.advance 1 3, .advance 2 1, .waitFor 0, .advance 2 2, .getMin, .waitFor 1]
      [(1, 1), (2, 2), (2, 2)] (by decide)).2.2.1 (by decide)⟩

/-! ## Writer window and the lap -/

theorem runOpsOn_invariant {σ : Type} (step : σ → Op → Except Fault σ)
    (guard : σ → Op → Bool) (P : σ → Prop)
    (hstep : ∀ s o s1, guard s o = true → step s o = .ok s1 → P s → P s1) :
    ∀ (ops : List Op) (s s1 : σ), runOpsOn step guard ops s = .ok s1 → P s → P s1 := by
  intro ops
  induction ops with
  | nil =>
      intro s s1 h hP
      simp only [runOpsOn] at h
      cases h
      exact hP
  | cons o os ih =>
      intro s s1 h hP
      simp only [runOpsOn] at h
      split at h
      · rename_i hg
        split at h
        · rename_i s2 hs2
          exact ih s2 s1 h (hstep s o s2 hg hs2 hP)
        · cases h
      · cases h

theorem advanceMem_eq {mem mem1 : Mem} {c : Nat} {v : Int}
    (h : advanceMem mem c v = .ok mem1) : ∀ i, mem1 i = if i = c then v else mem i := by
  unfold advanceMem at h
  split at h
  · cases h
    intro i
    rfl
  · cases h

theorem writer_publish_range {w w1 : WriteCursor} {p : Int} (h : w.publish p = .ok w1) :
    w1.begin_ ≤ INT64_MAX := by
  unfold WriteCursor.publish EventCursor.publish at h
  split at h
  · rename_i c hc
    split at hc
    · rename_i b hb
      cases hc
      cases h
      exact (add64_ok hb).2.2
    · cases hc
  · cases h

theorem followers_new : SequenceBarrier.new.followers = [] := by
  decide

theorem writer_new_one_lap (S : Int) : WriteCursor.OneLap S (WriteCursor.new S, Mem.fresh) := by
  refine ⟨rfl, WF_new, ?_, rfl, show (0 : Int) ≤ INT64_MAX by decide,
    show (-1 : Int) ≤ -1 by decide, ?_, ?_⟩
  · intro c
    simp only [Mem.fresh, INT64_MAX]
    omega
  · intro c hc
    have : (WriteCursor.new S).barrier_.followers = [] := followers_new
    rw [this] at hc
    simp at hc
  · show S - 0 ≤ S
    omega

theorem writer_step_one_lap (S : Int) (s : WriteCursor × Mem) (o : Op)
    (s1 : WriteCursor × Mem) (hg : lapOpsFollowed s o = true)
    (hstep : WriteCursor.step s o = .ok s1) (h : WriteCursor.OneLap S s) :
    WriteCursor.OneLap S s1 := by
  obtain ⟨h1, h2, h3, h4, h5, h6, h7, h8⟩ := h
  have hMAX : INT64_MAX = 9223372036854775807 := rfl
  cases o with
  | follows e =>
      simp only [lapOpsFollowed, lapOps, decide_eq_true_eq] at hg
      simp only [WriteCursor.step] at hstep
      cases hstep
      refine ⟨h1, WF_follows h2 e, h3, h4, h5, h6, ?_, h8⟩
      intro c hc
      rcases mem_followers_follows e c hc with hc1 | hc1
      · exact h7 c hc1
      · subst hc1
        exact hg
  | waitFor pos =>
      simp only [lapOpsFollowed, decide_eq_true_eq] at hg
      obtain ⟨hg1, hg2, hg3⟩ := hg
      simp only [WriteCursor.step] at hstep
      split at hstep
      · split at hstep
        · rename_i e w1 hw1
          cases hstep
          obtain ⟨m, b, _, _, hb, he, hw⟩ := writer_waitFor_ok hw1
          subst hw
          have hslots := (barrier_waitFor_ok hb).1
          have hm : m ≤ s.1.cursor_ ∧ b.last_min_ ≤ s.1.cursor_ := by
            rcases (barrier_waitFor_ok hb).2 with ⟨_, g2, g3⟩ | ⟨hlt, hscan, g3⟩
            · subst g3
              exact ⟨by omega, h6⟩
            · obtain ⟨⟨c, hc, hcm⟩, _⟩ :=
                barrier_waitFor_polled s.1.barrier_ b s.2 _ m h2 hg3 hlt hb
              have g1 := toInt32_le (s.2 c) (by have := (h3 c).1; omega)
              have g2 := h7 c hc
              rcases g3 with g3 | ⟨_, g3⟩
              · exact ⟨by omega, by omega⟩
              · subst g3
                exact ⟨by omega, h6⟩
          refine ⟨h1, WF_of_slots_eq hslots h2, h3, h4, h5, hm.2, ?_, ?_⟩
          · intro c hc
            simp only at hc
            rw [followers_of_slots_eq hslots] at hc
            exact h7 c hc
          · show e - s.1.begin_ ≤ S
            rw [he, h1, if_neg (by omega)]
            omega
        · cases hstep
      · cases hstep
  | checkEnd => simp [lapOpsFollowed, lapOps] at hg
  | publish =>
      simp only [lapOpsFollowed, lapOps, decide_eq_true_eq] at hg
      simp only [WriteCursor.step] at hstep
      split at hstep
      · rename_i w1 hw1
        cases hstep
        obtain ⟨p1, p2, p3, p4, p5⟩ := writer_publish_ok hw1
        have p6 := writer_publish_range hw1
        refine ⟨by simpa [p4] using h1, by simpa [p3] using h2, h3, ?_, p6, ?_, ?_, ?_⟩
        · show w1.begin_ = w1.cursor_ + 1
          rw [p1, p5]
        · show w1.barrier_.last_min_ ≤ w1.cursor_
          rw [p3, p5]
          omega
        · intro c hc
          simp only at hc ⊢
          rw [p3] at hc
          rw [p5]
          have := h7 c hc
          omega
        · show w1.end_ - w1.begin_ ≤ S
          rw [p1, p2]
          omega
      · cases hstep
  | advance c v =>
      simp only [lapOpsFollowed, lapOps, decide_eq_true_eq] at hg
      simp only [WriteCursor.step] at hstep
      split at hstep
      · rename_i mem1 hm
        cases hstep
        refine ⟨h1, h2, advanceMem_bounded hm h3, h4, h5, h6, ?_, h8⟩
        intro d hd
        show mem1 d ≤ s.1.cursor_
        rw [advanceMem_eq hm d]
        by_cases hdc : d = c
        · subst hdc
          rw [if_pos rfl]
          exact hg hd
        · rw [if_neg hdc]
          exact h7 d hd
      · cases hstep

theorem slots_differ (k : Nat) (hk : k ≤ 63) (p1 p2 : Int) (h1 : p1 < p2)
    (h2 : p2 - p1 < (2 : Int) ^ k) :
    RingBuffer.at_ (2 ^ k) p1 ≠ RingBuffer.at_ (2 ^ k) p2 := by
  intro heq
  have e1 := at_eq_emod k hk p1
  have e2 := at_eq_emod k hk p2
  rw [heq] at e1
  have hmod : p2 % (2 : Int) ^ k = p1 % (2 : Int) ^ k := e2.symm.trans e1
  have hsub : (p2 - p1) % (2 : Int) ^ k = 0 :=
    Int.emod_eq_emod_iff_emod_sub_eq_zero.mp hmod
  rw [Int.emod_eq_of_lt (by omega) h2] at hsub
  omega

/-- C17, as stated, fails in the bootstrap phase: a writer of capacity 4
without followers publishes `0..3`, and `waitFor(4)` grants `[4, 9)`: five
positions, of which 4 and 8 map to the same ring slot. -/
theorem writer_window_one_lap_counterexample :
    ∃ w mem,
      runOpsOn WriteCursor.step lapOps [.publish, .publish, .publish, .publish, .waitFor 4]
        (WriteCursor.new 4, Mem.fresh) = .ok (w, mem) ∧
      w.begin_ = 4 ∧ w.end_ = 9 ∧ ¬ w.end_ - w.begin_ ≤ 4 ∧
      RingBuffer.at_ 4 4 = RingBuffer.at_ 4 8 := by
  refine ⟨_, _, rfl, ?_⟩
  decide

/-- C17, amended. For a writer of capacity `S` driven by the producer loop,
whose registered followers never publish beyond the writer's own published
position, and which has at least one registered follower whenever it calls
`waitFor`: `end() - begin() ≤ S` in every reachable state, and when
`S = 2 ^ k` no two positions of the window map to the same ring slot. -/
theorem writer_window_one_lap (S : Int) (ops : List Op) (w : WriteCursor) (mem : Mem)
    (hrun : runOpsOn WriteCursor.step lapOpsFollowed ops (WriteCursor.new S, Mem.fresh) =
      .ok (w, mem)) :
    w.end_ - w.begin_ ≤ S ∧
    ∀ k : Nat, k ≤ 63 → S = (2 : Int) ^ k → ∀ p1 p2 : Int,
      w.begin_ ≤ p1 → p1 < p2 → p2 < w.end_ →
      RingBuffer.at_ (2 ^ k) p1 ≠ RingBuffer.at_ (2 ^ k) p2 := by
  have hlap : WriteCursor.OneLap S (w, mem) :=
    runOpsOn_invariant WriteCursor.step lapOpsFollowed (WriteCursor.OneLap S)
      (writer_step_one_lap S) ops _ _ hrun (writer_new_one_lap S)
  have hlen : w.end_ - w.begin_ ≤ S := hlap.2.2.2.2.2.2.2
  refine ⟨hlen, ?_⟩
  intro k hk hS p1 p2 hb h12 he
  exact slots_differ k hk p1 p2 h12 (by rw [← hS]; omega)

/-- Writer of capacity 4 following reader 1, which has read position 1 when
the writer waits after its first lap: the window is `[4, 6)`. -/
theorem writer_window_one_lap_witness :
    ∃ w mem,
      runOpsOn WriteCursor.step lapOpsFollowed
        [.follows 1, .publish, .publish, .publish, .publish, .advance 1 0, .advance 1 1,
         .waitFor 4]
        (WriteCursor.new 4, Mem.fresh) = .ok (w, mem) ∧
      w.begin_ = 4 ∧ w.end_ = 6 ∧ w.end_ - w.begin_ ≤ 4 ∧
      RingBuffer.at_ (2 ^ 2) 4 ≠ RingBuffer.at_ (2 ^ 2) 5 :=
  ⟨_, _, rfl, by decide, by decide,
    (writer_window_one_lap 4
      [.follows 1, .publish, .publish, .publish, .publish, .advance 1 0, .advance 1 1,
       .waitFor 4] _ _ rfl).1,
    (writer_window_one_lap 4
      [.follows 1, .publish, .publish, .publish, .publish, .advance 1 0, .advance 1 1,
       .waitFor 4] _ _ rfl).2 2 (by decide) (by decide) 4 5 (by decide) (by decide)
      (by decide)⟩

/-! ## Window end -/

theorem runOps_after_window {σ : Type} (step : σ → Op → Except Fault σ)
    (view : σ → EventCursor) (P G Q : σ → Prop)
    (hPG : ∀ s, P s → G s) (hQG : ∀ s, Q s → G s)
    (hP : ∀ s o s1, o.isWindowOp = false → step s o = .ok s1 → P s → P s1)
    (hW : ∀ s o s1, o.isWindowOp = true → step s o = .ok s1 → G s → Q s1)
    (hQ : ∀ s o s1, o.isWindowOp = false → o.isFollows = false → step s o = .ok s1 →
      Q s → Q s1) :
    ∀ (ops : List Op) (s s1 : σ), setupFirst ops = true → ops.any Op.isWindowOp = true →
      runOps step view anyOp ops s = .ok s1 → P s → Q s1 := by
  have steady : ∀ (ops : List Op) (s s1 : σ), ops.all (fun o1 => !o1.isFollows) = true →
      runOps step view anyOp ops s = .ok s1 → Q s → Q s1 := by
    intro ops
    induction ops with
    | nil =>
        intro s s1 _ h hQs
        simp only [runOps] at h
        cases h
        exact hQs
    | cons o os ih =>
        intro s s1 hall h hQs
        simp only [List.all_cons, Bool.and_eq_true, Bool.not_eq_true'] at hall
        simp only [runOps, anyOp, if_true] at h
        split at h
        · rename_i s2 hs2
          by_cases hw : o.isWindowOp = true
          · exact ih s2 s1 hall.2 h (hW s o s2 hw hs2 (hQG s hQs))
          · have hw1 : o.isWindowOp = false := by simpa using hw
            exact ih s2 s1 hall.2 h (hQ s o s2 hw1 hall.1 hs2 hQs)
        · cases h
  intro ops
  induction ops with
  | nil =>
      intro s s1 _ hany _ _
      simp at hany
  | cons o os ih =>
      intro s s1 hsetup hany h hPs
      by_cases hw : o.isWindowOp = true
      · simp only [setupFirst, hw, if_true, List.all_cons, Bool.and_eq_true] at hsetup
        simp only [runOps, anyOp, if_true] at h
        split at h
        · rename_i s2 hs2
          exact steady os s2 s1 hsetup.2 h (hW s o s2 hw hs2 (hPG s hPs))
        · cases h
      · have hw1 : o.isWindowOp = false := by simpa using hw
        simp only [setupFirst, hw1] at hsetup
        simp only [List.any_cons, hw1, Bool.false_or] at hany
        simp only [runOps, anyOp, if_true] at h
        split at h
        · rename_i s2 hs2
          exact ih s2 s1 (by simpa using hsetup) hany h (hP s o s2 hw1 hs2 hPs)
        · cases h

theorem reader_covered_gated (s : ReadCursor × Mem) (h : ReadCursor.Covered s) :
    ReadCursor.Gated s := by
  obtain ⟨h2, h3, h4⟩ := h
  exact ⟨h2, h3, fun c hc => ⟨(h4 c hc).1, Or.inr (h4 c hc).2⟩⟩

theorem reader_window_step_covered (s : ReadCursor × Mem) (o : Op) (s1 : ReadCursor × Mem)
    (ho : o.isWindowOp = true) (hstep : ReadCursor.step s o = .ok s1)
    (h : ReadCursor.Gated s) : ReadCursor.Covered s1 := by
  obtain ⟨h2, h3, h4⟩ := h
  cases o with
  | follows e => simp [Op.isWindowOp] at ho
  | publish => simp [Op.isWindowOp] at ho
  | advance c v => simp [Op.isWindowOp] at ho
  | waitFor pos =>
      simp only [ReadCursor.step] at hstep
      split at hstep
      · split at hstep
        · rename_i e r1 hr1
          cases hstep
          obtain ⟨m, b, hb, he, hr⟩ := reader_waitFor_ok hr1
          subst hr
          have hslots := (barrier_waitFor_ok hb).1
          have hle := barrier_waitFor_le h2 h3 (fun c hc => (h4 c hc).1) hb
          refine ⟨WF_of_slots_eq hslots h2, h3, ?_⟩
          intro c hc
          simp only at hc ⊢
          rw [followers_of_slots_eq hslots] at hc
          obtain ⟨hm, hl⟩ := hle c hc
          exact ⟨hl, by omega⟩
        · cases hstep
      · cases hstep
  | checkEnd =>
      simp only [ReadCursor.step] at hstep
      split at hstep
      · rename_i e r1 hr1
        cases hstep
        obtain ⟨he, hr⟩ := reader_checkEnd_ok hr1
        subst hr
        have hslots : (s.1.barrier_.getMin s.2).2.limit_seq_ = s.1.barrier_.limit_seq_ := rfl
        have hlast : (s.1.barrier_.getMin s.2).2.last_min_ = (s.1.barrier_.getMin s.2).1 := rfl
        refine ⟨WF_of_slots_eq hslots h2, h3, ?_⟩
        intro c hc
        simp only at hc ⊢
        rw [followers_of_slots_eq hslots] at hc
        have hm := barrier_getMin_le s.2 h2 c hc
        rw [hlast, he]
        exact ⟨hm, by omega⟩
      · cases hstep

theorem reader_other_step_covered (s : ReadCursor × Mem) (o : Op) (s1 : ReadCursor × Mem)
    (hw : o.isWindowOp = false) (ho : o.isFollows = false)
    (hstep : ReadCursor.step s o = .ok s1) (h : ReadCursor.Covered s) :
    ReadCursor.Covered s1 := by
  obtain ⟨h2, h3, h4⟩ := h
  cases o with
  | follows e => simp [Op.isFollows] at ho
  | waitFor pos => simp [Op.isWindowOp] at hw
  | checkEnd => simp [Op.isWindowOp] at hw
  | publish =>
      simp only [ReadCursor.step] at hstep
      split at hstep
      · rename_i r1 hr1
        cases hstep
        obtain ⟨_, p2, p3, _⟩ := reader_publish_ok hr1
        refine ⟨by simpa [p3] using h2, h3, ?_⟩
        intro c hc
        simp only at hc ⊢
        rw [p3] at hc ⊢
        rw [p2]
        exact h4 c hc
      · cases hstep
  | advance c v =>
      simp only [ReadCursor.step] at hstep
      split at hstep
      · rename_i mem1 hm
        cases hstep
        refine ⟨h2, advanceMem_bounded hm h3, ?_⟩
        intro d hd
        obtain ⟨g1, g2⟩ := h4 d hd
        have g3 := ((advanceMem_ok hm).2 d).1
        show s.1.barrier_.last_min_ ≤ mem1 d ∧ s.1.end_ ≤ mem1 d + 1
        constructor <;> omega
      · cases hstep

theorem reader_checkEnd_covered (r r1 : ReadCursor) (mem : Mem) (e : Int)
    (h : ReadCursor.Covered (r, mem)) (hc : r.checkEnd mem = .ok (e, r1)) :
    r.end_ ≤ r1.end_ := by
  obtain ⟨⟨fs, n, hl⟩, _, h4⟩ := h
  have hf := followers_of_slots hl
  have hMAX : INT64_MAX = 9223372036854775807 := rfl
  unfold ReadCursor.checkEnd at hc
  split at hc
  · cases hc
  · rename_i e1 he
    cases hc
    obtain ⟨he1, _, he3⟩ := add64_ok he
    obtain ⟨_, _, g3⟩ := getMinScan_spec mem fs n INT64_MAX
    have hl1 : r.barrier_.limit_seq_ = fs.map some ++ List.replicate n none := hl
    simp only [SequenceBarrier.getMin, hl1] at he1
    show r.end_ ≤ e
    rcases g3 with g3 | ⟨c, hcf, g3⟩
    · rw [g3] at he1
      omega
    · have := (h4 c (by simp only [hf]; exact hcf)).2
      simp only at this
      rw [g3] at he1
      omega

/-- C18, as stated, fails. A writer of capacity 4 whose follower has
published 0 is granted `end = 5` by `waitFor(4)`, and `checkEnd()` right after
sets `end = 4`. A reader seeded with 2 that follows a fresh cursor has
`end = 2`, and `checkEnd()` sets `end = 0`. -/
theorem window_end_counterexample :
    (∃ w mem e w1,
      WriteCursor.run anyOp
        [.follows 1, .publish, .publish, .publish, .publish, .advance 1 0, .waitFor 4]
        (WriteCursor.new 4, Mem.fresh) = .ok (w, mem) ∧ w.end_ = 5 ∧
      w.checkEnd mem = .ok (e, w1) ∧ w1.end_ = 4 ∧ w1.end_ < w.end_) ∧
    (∃ r1, ((ReadCursor.new 2).follows 1).checkEnd Mem.fresh = .ok (0, r1) ∧
      r1.end_ < ((ReadCursor.new 2).follows 1).end_) := by
  refine ⟨⟨_, _, _, _, rfl, ?_, rfl, ?_⟩, ⟨_, rfl, ?_⟩⟩ <;> decide

/-- C18, amended. A `waitFor(end())` that returns leaves `end()` larger than
it was, on every writer of capacity `S ≥ 0` and on every reader. On a reader
whose followers are all registered before its first `waitFor` or `checkEnd`
and never decrease, a `checkEnd()` made after a `waitFor` or `checkEnd` has
returned does not leave `end()` smaller than it was. -/
theorem window_end_never_shrinks :
    (∀ (w w1 : WriteCursor) (mem : Mem) (e : Int), 0 ≤ w.size_ →
      w.waitFor mem w.end_ = .ok (e, w1) → w.end_ < w1.end_) ∧
    (∀ (r r1 : ReadCursor) (mem : Mem) (e : Int), r.end_ ≤ INT64_MAX →
      r.waitFor mem r.end_ = .ok (e, r1) → r.end_ < r1.end_) ∧
    (∀ (q : Int) (ops : List Op) (r r1 : ReadCursor) (mem : Mem) (e : Int),
      setupFirst ops = true → ops.any Op.isWindowOp = true →
      ReadCursor.run anyOp ops (ReadCursor.new q, Mem.fresh) = .ok (r, mem) →
      r.checkEnd mem = .ok (e, r1) → r.end_ ≤ r1.end_) := by
  refine ⟨?_, ?_, ?_⟩
  · intro w w1 mem e hS hw
    obtain ⟨m, b, _, ht, hb, he, hw1⟩ := writer_waitFor_ok hw
    subst hw1
    have hm := barrier_waitFor_ge hb ht
    show w.end_ < e
    rw [he]
    split <;> omega
  · intro r r1 mem e hend hr
    obtain ⟨m, b, hb, he, hr1⟩ := reader_waitFor_ok hr
    subst hr1
    have hm := barrier_waitFor_ge hb hend
    show r.end_ < e
    omega
  · intro q ops r r1 mem e hsetup hany hrun hc
    have hcov : ReadCursor.Covered (r, mem) :=
      runOps_after_window ReadCursor.step (fun s => s.1.toEventCursor)
        ReadCursor.InSetup ReadCursor.Gated ReadCursor.Covered
        reader_setup_gated reader_covered_gated reader_step_setup
        reader_window_step_covered reader_other_step_covered
        ops _ _ hsetup hany hrun (reader_new_setup q)
    exact reader_checkEnd_covered r r1 mem e hcov hc

/-- Reader following cursor 1: after `waitFor(0)` granted `end = 3`, the
follower publishes 4 and `checkEnd()` sets `end = 5`. -/
theorem window_end_never_shrinks_witness :
    ∃ r mem r1,
      ReadCursor.run anyOp [.follows 1, .advance 1 2, .waitFor 0, .advance 1 4]
        (ReadCursor.new 0, Mem.fresh) = .ok (r, mem) ∧
      r.checkEnd mem = .ok (5, r1) ∧ r.end_ = 3 ∧ r.end_ ≤ r1.end_ :=
  ⟨_, _, _, rfl, rfl, by decide,
    window_end_never_shrinks.2.2 0 [.follows 1, .advance 1 2, .waitFor 0, .advance 1 4]
      _ _ _ 5 (by decide) (by decide) rfl rfl⟩

/-! ## Overflow in the window arithmetic -/

theorem waitForScan_narrow (mem : Mem) (pos : Int) (l : List (Option Nat)) (acc r : Int)
    (h : waitForScan mem pos l acc = some r) :
    r = acc ∨ (-2147483648 ≤ r ∧ r < 2147483648) := by
  induction l generalizing acc with
  | nil =>
      simp [waitForScan] at h
      exact Or.inl h.symm
  | cons s rest ih =>
      cases s with
      | none =>
          simp [waitForScan] at h
          exact Or.inl h.symm
      | some c =>
          simp only [waitForScan] at h
          by_cases hge : toInt32 (mem c) ≥ pos
          · rw [if_pos hge] at h
            have h32 : -2147483648 ≤ toInt32 (mem c) ∧ toInt32 (mem c) < 2147483648 := by
              unfold toInt32
              omega
            rcases ih _ h with h1 | h1
            · by_cases hlt : toInt32 (mem c) < acc
              · rw [if_pos hlt] at h1
                exact Or.inr (by omega)
              · rw [if_neg hlt] at h1
                exact Or.inl h1
            · exact Or.inr h1
          · rw [if_neg hge] at h
            exact absurd h (by simp)

theorem barrier_waitFor_value {b b1 : SequenceBarrier} {mem : Mem} {pos m : Int}
    (h : b.waitFor mem pos = .ok (m, b1)) :
    m = b.last_min_ ∨ m = INT64_MAX ∨ (-2147483648 ≤ m ∧ m < 2147483648) := by
  rcases (barrier_waitFor_ok h).2 with ⟨_, h2, _⟩ | ⟨_, hscan, _⟩
  · exact Or.inl h2
  · exact Or.inr (waitForScan_narrow mem pos _ _ _ hscan)

theorem barrier_waitFor_no_overflow (b : SequenceBarrier) (mem : Mem) (pos : Int) :
    b.waitFor mem pos ≠ .error .overflow := by
  unfold SequenceBarrier.waitFor
  split
  · simp
  · split
    · simp
    · split <;> simp

/-- What the code does for positions in `[-1, 2^62)` and a capacity in
`[1, 2^32]`: `WriteCursor::waitFor` never overflows, with or
without followers; the other three calls do not overflow when the barrier
has at least one registered follower. -/
theorem window_arithmetic_in_range :
    (∀ (w : WriteCursor) (mem : Mem) (pos : Int),
      1 ≤ w.size_ → w.size_ ≤ 4294967296 →
      -1 ≤ pos → pos < 4611686018427387904 →
      -1 ≤ w.barrier_.last_min_ → w.barrier_.last_min_ < 4611686018427387904 →
      w.waitFor mem pos ≠ .error .overflow) ∧
    (∀ (r : ReadCursor) (mem : Mem) (pos : Int),
      r.barrier_.WF → r.barrier_.followers ≠ [] →
      -1 ≤ r.barrier_.last_min_ → r.barrier_.last_min_ < 4611686018427387904 →
      r.waitFor mem pos ≠ .error .overflow) ∧
    (∀ (r : ReadCursor) (mem : Mem),
      r.barrier_.WF → r.barrier_.followers ≠ [] →
      (∀ c ∈ r.barrier_.followers, -1 ≤ mem c ∧ mem c < 4611686018427387904) →
      r.checkEnd mem ≠ .error .overflow) ∧
    (∀ (w : WriteCursor) (mem : Mem),
      1 ≤ w.size_ → w.size_ ≤ 4294967296 →
      w.barrier_.WF → w.barrier_.followers ≠ [] →
      (∀ c ∈ w.barrier_.followers, -1 ≤ mem c ∧ mem c < 4611686018427387904) →
      w.checkEnd mem ≠ .error .overflow) := by
  have hMAX : INT64_MAX = 9223372036854775807 := rfl
  have hMIN : INT64_MIN = -9223372036854775808 := rfl
  have hmin_range : ∀ (b : SequenceBarrier) (mem : Mem), b.WF → b.followers ≠ [] →
      (∀ c ∈ b.followers, -1 ≤ mem c ∧ mem c < 4611686018427387904) →
      -1 ≤ (b.getMin mem).1 ∧ (b.getMin mem).1 < 4611686018427387904 := by
    intro b mem hwf hne hm
    obtain ⟨fs, n, hl⟩ := hwf
    have hf := followers_of_slots hl
    rw [hf] at hne hm
    obtain ⟨_, g2, g3⟩ := getMinScan_spec mem fs n INT64_MAX
    simp only [SequenceBarrier.getMin, hl]
    rcases g3 with g3 | ⟨c, hc, g3⟩
    · obtain ⟨c, hc⟩ := List.exists_mem_of_ne_nil fs hne
      have := g2 c hc
      have := hm c hc
      omega
    · rw [g3]
      exact hm c hc
  refine ⟨?_, ?_, ?_, ?_⟩
  · intro w mem pos hS1 hS2 hp1 hp2 hc1 hc2
    have h1 : sub64 pos w.size_ = .ok (pos - w.size_) := by
      unfold sub64
      rw [if_pos (by constructor <;> omega)]
    unfold WriteCursor.waitFor
    rw [h1]
    simp only
    cases hb : w.barrier_.waitFor mem (pos - w.size_) with
    | error f =>
        simp only [ne_eq, Except.error.injEq]
        intro hf
        subst hf
        exact barrier_waitFor_no_overflow _ _ _ hb
    | ok x =>
        obtain ⟨m, b⟩ := x
        have hv := barrier_waitFor_value hb
        simp only
        by_cases hm : m = INT64_MAX
        · rw [if_pos hm]
          have h2 : add64 pos w.size_ = .ok (pos + w.size_) := by
            unfold add64
            rw [if_pos (by constructor <;> omega)]
          have h3 : add64 (pos + w.size_) 1 = .ok (pos + w.size_ + 1) := by
            unfold add64
            rw [if_pos (by constructor <;> omega)]
          simp [h2, h3]
        · rw [if_neg hm]
          have h2 : add64 m w.size_ = .ok (m + w.size_) := by
            unfold add64
            rw [if_pos (by constructor <;> omega)]
          have h3 : add64 (m + w.size_) 1 = .ok (m + w.size_ + 1) := by
            unfold add64
            rw [if_pos (by constructor <;> omega)]
          simp [h2, h3]
  · intro r mem pos hwf hne hc1 hc2
    unfold ReadCursor.waitFor
    cases hb : r.barrier_.waitFor mem pos with
    | error f =>
        simp only [ne_eq, Except.error.injEq]
        intro hf
        subst hf
        exact barrier_waitFor_no_overflow _ _ _ hb
    | ok x =>
        obtain ⟨m, b⟩ := x
        simp only
        have hm : -2147483648 ≤ m ∧ m < 4611686018427387904 := by
          rcases (barrier_waitFor_ok hb).2 with ⟨_, h2, _⟩ | ⟨hlt, _, _⟩
          · omega
          · obtain ⟨⟨c, _, hcm⟩, _⟩ := barrier_waitFor_polled r.barrier_ b mem pos m hwf hne hlt hb
            have : -2147483648 ≤ toInt32 (mem c) ∧ toInt32 (mem c) < 2147483648 := by
              unfold toInt32
              omega
            omega
        have h3 : add64 m 1 = .ok (m + 1) := by
          unfold add64
          rw [if_pos (by constructor <;> omega)]
        simp [h3]
  · intro r mem hwf hne hm
    have hr := hmin_range r.barrier_ mem hwf hne hm
    have h3 : add64 (r.barrier_.getMin mem).1 1 = .ok ((r.barrier_.getMin mem).1 + 1) := by
      unfold add64
      rw [if_pos (by constructor <;> omega)]
    simp [ReadCursor.checkEnd, h3]
  · intro w mem hS1 hS2 hwf hne hm
    have hr := hmin_range w.barrier_ mem hwf hne hm
    have h3 : add64 (w.barrier_.getMin mem).1 w.size_ =
        .ok ((w.barrier_.getMin mem).1 + w.size_) := by
      unfold add64
      rw [if_pos (by constructor <;> omega)]
    simp [WriteCursor.checkEnd, h3]

/-- C19. Without registered followers the barrier reports `INT64_MAX`, and
`ReadCursor::checkEnd`, `ReadCursor::waitFor` and `WriteCursor::checkEnd` add
to it: the sum leaves the int64 range. `WriteCursor::waitFor` tests for the
sentinel and stays in range. -/
theorem sentinel_arithmetic_overflows :
    (ReadCursor.new 0).barrier_.followers = [] ∧
    ((ReadCursor.new 0).barrier_.getMin Mem.fresh).1 = INT64_MAX ∧
    ((ReadCursor.new 0).barrier_.waitFor Mem.fresh 0).map Prod.fst = .ok INT64_MAX ∧
    (ReadCursor.new 0).checkEnd Mem.fresh = .error .overflow ∧
    (ReadCursor.new 0).waitFor Mem.fresh 0 = .error .overflow ∧
    (WriteCursor.new 4).checkEnd Mem.fresh = .error .overflow ∧
    ((WriteCursor.new 4).waitFor Mem.fresh 4).map Prod.fst = .ok 9 := by
  decide

end Disruptor
